import Mathlib

/-!
# Verification of the convolutional encoder/decoder in `bms.py`

Shallow embedding of the Python source `src/bms.py` (encoder `encode`,
tap derivation `getIndexes`, branch output `calculateOutput`, Viterbi
decoder `decode` with `eval_step` and `calculateHammingDist`), together
with proofs of the specification claims.

Modelling conventions:
* Characters are represented by their code points (`Nat`), bit characters
  `'0'`/`'1'` by the numbers `0`/`1`; Python's `ord`/`chr`/`int(_, 2)`
  round-trips make this faithful.
* Python code that can raise (`reduce` over an empty list, `pop` from an
  empty list) is modelled in the `Option` monad, `none` meaning an
  uncaught exception.
* `min_err = sys.maxsize` is an infinity sentinel for the running minimum;
  it is modelled as a first-strict-minimum scan (`pyMinByErr`), `none` on
  an empty survivor list (where Python would crash on `best_path[PATH]`).
* Python's stable `sorted` is modelled by a stable insertion sort with the
  same key order (stable sorts by the same key are extensionally equal),
  and `itertools.groupby` by grouping of maximal adjacent runs.
-/

namespace BMS

/-! ## Binary digit strings, `bin(n)` -/

/-- Digits of Python `bin n` (most significant first), with explicit fuel so
that the recursion is structural and kernel-reducible.  For `fuel ≥ n` this
computes exactly the digit list of `bin(n)` without the `0b` prefix. -/
def binDigitsF : Nat → Nat → List Nat
  | _, 0 => [0]
  | _, 1 => [1]
  | 0, n => [n % 2]
  | fuel + 1, n => binDigitsF fuel (n / 2) ++ [n % 2]

/-- The digit list of Python `bin n` (most significant digit first). -/
def pyBin (n : Nat) : List Nat := binDigitsF n n

/-! ## Configuration and tap sets (`getIndexes`) -/

/-- `config = [X, Y, Z]`: number of delay cells and the two feedback schemes. -/
structure Config where
  X : Nat
  Y : Nat
  Z : Nat
deriving Repr, DecidableEq

/-- The default module-wide configuration `[5, 53, 46]`. -/
def defaultConfig : Config := ⟨5, 53, 46⟩

/-- `(['0']*X + list(bin(P).replace('b','')))[-(X+1):]`: the generator pattern
of polynomial `P`, aligned to the last `X+1` digit positions.  Note that
`'0b101'.replace('b','')` is `'0101'`, hence the extra leading `0 ::`. -/
def schemePattern (X P : Nat) : List Nat :=
  let l := List.replicate X 0 ++ 0 :: pyBin P
  l.drop (l.length - (X + 1))

/-- `[idx for idx, val in enumerate(l) if val == '1']`. -/
def onesIdx (l : List Nat) : List Nat :=
  l.enum.filterMap (fun p => if p.2 = 1 then some p.1 else none)

/-- `getIndexes(config)`: index lists of the upper and lower feedback scheme. -/
def getIndexes (cfg : Config) : List Nat × List Nat :=
  (onesIdx (schemePattern cfg.X cfg.Y), onesIdx (schemePattern cfg.X cfg.Z))

/-! ## Branch output (`calculateOutput`) -/

/-- Python `reduce(lambda x, y: x ^ y, l)`: `none` (a `TypeError`) on the
empty list, otherwise the left fold of xor starting from the head. -/
def pyReduceXor : List Nat → Option Nat
  | [] => none
  | x :: xs => some (xs.foldl (fun a b => a ^^^ b) x)

/-- `calculateOutput(branch, state, indexes_y, indexes_z, res)`: prepend the
2-bit encoder output `[y, z]` for buffer `[branch] + state` to `res`.
Tap indexes are always in range in the program, so `getD _ 0` is exact. -/
def calculateOutput (branch : Nat) (state : List Nat) (iy iz : List Nat)
    (res : List Nat) : Option (List Nat) :=
  let buffer := branch :: state
  match pyReduceXor (iy.map (fun idx => buffer.getD idx 0)),
        pyReduceXor (iz.map (fun idx => buffer.getD idx 0)) with
  | some res_y, some res_z => some (res_y :: res_z :: res)
  | _, _ => none

/-! ## Encoder (`encode`) -/

/-- `('00000000' + bin(ord c)).replace('b','')[-8:]`: the 8-bit binary
representation of a character code (most significant bit first). -/
def byteBits (c : Nat) : List Nat :=
  let l := List.replicate 8 0 ++ 0 :: pyBin c
  l.drop (l.length - 8)

/-- Python `l.pop()` (discard last element): `none` (an `IndexError`) on the
empty list. -/
def pyPop : List Nat → Option (List Nat)
  | [] => none
  | l => some l.dropLast

/-- The encoder loop: for each branch bit (already in reversed processing
order) prepend its output pair to `res` and shift the branch into `state`. -/
def encodeSteps (iy iz : List Nat) : List Nat → List Nat → List Nat → Option (List Nat)
  | [], _, res => some res
  | b :: rest, state, res =>
    match calculateOutput b state iy iz res, pyPop state with
    | some res2, some st2 => encodeSteps iy iz rest (b :: st2) res2
    | _, _ => none

/-- `encode(input_str, config)` over the list of character code points;
the result is the list of output bits (Python returns them as chars). -/
def encode (s : List Nat) (cfg : Config) : Option (List Nat) :=
  let state := List.replicate cfg.X 0
  let input_bin := state ++ s.flatMap byteBits
  let idx := getIndexes cfg
  encodeSteps idx.1 idx.2 input_bin.reverse state []

/-! ## Decoder data (`paths`, Hamming distance) -/

/-- A survivor path tuple `(path, error_count, state)`. -/
structure PathT where
  bits : List Nat
  err : Nat
  st : List Nat
deriving Repr, DecidableEq

/-- Population count with structural fuel (`bin(n).count('1')`). -/
def popCountF : Nat → Nat → Nat
  | _, 0 => 0
  | 0, _ => 0
  | fuel + 1, n => n % 2 + popCountF fuel (n / 2)

/-- `str(bin(n)).count('1')` for `n ≥ 0`. -/
def popcount (n : Nat) : Nat := popCountF n n

/-- `int(p, 2)` for a pair of bit characters. -/
def pairVal (p : Nat × Nat) : Nat := 2 * p.1 + p.2

/-- `calculateHammingDist(branch, state, indexes_y, indexes_z, pair)`:
simulate one encoder step and count differing bits against `pair`. -/
def calculateHammingDist (branch : Nat) (state : List Nat) (iy iz : List Nat)
    (pr : Nat × Nat) : Option Nat :=
  match calculateOutput branch state iy iz [] with
  | some [y, z] => some (popcount ((2 * y + z) ^^^ pairVal pr))
  | _ => none

/-- `eval_step(path, indexes_y, indexes_z, pair)`: the two candidate
extensions of a survivor, hypothesis bit `0` first, then bit `1`. -/
def eval_step (p : PathT) (iy iz : List Nat) (pr : Nat × Nat) :
    Option (List PathT) :=
  match pyPop p.st, calculateHammingDist 0 p.st iy iz pr,
        calculateHammingDist 1 p.st iy iz pr with
  | some stTail, some err_a, some err_b =>
    some [⟨0 :: p.bits, p.err + err_a, 0 :: stTail⟩,
          ⟨1 :: p.bits, p.err + err_b, 1 :: stTail⟩]
  | _, _, _ => none

/-! ## Survivor reduction: stable sort by state, group, min per group -/

/-- Python list comparison `<` (lexicographic) on states. -/
def stateLtB : List Nat → List Nat → Bool
  | [], [] => false
  | [], _ :: _ => true
  | _ :: _, [] => false
  | a :: xs, b :: ys => if a < b then true else if b < a then false else stateLtB xs ys

/-- Python list comparison `<=` on states. -/
def stateLeB (x y : List Nat) : Bool := ! stateLtB y x

/-- Stable insertion of a path by state key: insert before the first element
whose state is not smaller (so equal keys keep their original order). -/
def insertByState (x : PathT) : List PathT → List PathT
  | [] => [x]
  | y :: ys => if stateLeB x.st y.st then x :: y :: ys else y :: insertByState x ys

/-- Stable sort by state key, extensionally equal to Python
`sorted(l, key=lambda x: x[STATE])`. -/
def sortPaths : List PathT → List PathT
  | [] => []
  | x :: xs => insertByState x (sortPaths xs)

/-- Maximal runs of adjacent equal states, as produced by
`itertools.groupby(l, key=lambda x: x[STATE])`. -/
def groupRuns : List PathT → List (List PathT)
  | [] => []
  | x :: xs =>
    match groupRuns xs with
    | [] => [[x]]
    | [] :: gs => [x] :: gs
    | (y :: g) :: gs =>
      if x.st = y.st then (x :: y :: g) :: gs else [x] :: (y :: g) :: gs

/-- Python `min(l, key=lambda t: t[ERR_C])` starting from `best`: the first
element attaining the minimal error count wins ties. -/
def pyMinByErr : PathT → List PathT → PathT
  | best, [] => best
  | best, x :: xs => if x.err < best.err then pyMinByErr x xs else pyMinByErr best xs

/-- The reduction phase of one decoding step: sort by state, group equal
states, and keep the (first) minimum-error path of each group. -/
def reducePaths (l : List PathT) : List PathT :=
  (groupRuns (sortPaths l)).filterMap (fun g =>
    match g with
    | [] => none
    | x :: xs => some (pyMinByErr x xs))

/-- `for path in paths: new_paths += eval_step(path, ...)`. -/
def extendAll (iy iz : List Nat) (pr : Nat × Nat) : List PathT → Option (List PathT)
  | [] => some []
  | p :: ps =>
    match eval_step p iy iz pr, extendAll iy iz pr ps with
    | some e, some rest => some (e ++ rest)
    | _, _ => none

/-- The decoder main loop over the (already reversed) list of input pairs. -/
def decodeFold (iy iz : List Nat) : List (Nat × Nat) → List PathT → Option (List PathT)
  | [], paths => some paths
  | pr :: rest, paths =>
    match extendAll iy iz pr paths with
    | some cands => decodeFold iy iz rest (reducePaths cands)
    | none => none

/-- `min_err = sys.maxsize; for path in paths: if path[ERR_C] < min_err: ...`
keeps the first path attaining the minimal error count; an empty survivor
list would leave `best_path = ()` and crash on `best_path[PATH]`. -/
def selectBest : List PathT → Option PathT
  | [] => none
  | x :: xs => some (pyMinByErr x xs)

/-! ## Decoder output assembly -/

/-- `zip(s[::2], s[1::2])`: consecutive pairs, a trailing odd element dropped. -/
def pairsOf : List Nat → List (Nat × Nat)
  | a :: b :: rest => (a, b) :: pairsOf rest
  | _ => []

/-- `re.findall('........', s)`: consecutive 8-element chunks, the tail
shorter than 8 dropped. -/
def chunks8 : List Nat → List (List Nat)
  | b0 :: b1 :: b2 :: b3 :: b4 :: b5 :: b6 :: b7 :: rest =>
    [b0, b1, b2, b3, b4, b5, b6, b7] :: chunks8 rest
  | _ => []

/-- `int(x, 2)` of a digit chunk (most significant first). -/
def byteVal (l : List Nat) : Nat := l.foldl (fun a b => 2 * a + b) 0

/-- Output assembly: drop the `X`-bit flush prefix, split into 8-bit chunks,
keep `chr(v)` only for `v < 128` (values `≥ 128` contribute `''`, which
vanishes in the final `''.join`). -/
def decodeOut (X : Nat) (bits : List Nat) : List Nat :=
  (chunks8 (bits.drop X)).filterMap (fun w =>
    if byteVal w < 128 then some (byteVal w) else none)

/-- `decode(input_str, config)` over the list of input bits; the result is
the list of decoded character code points. -/
def decode (bits : List Nat) (cfg : Config) : Option (List Nat) :=
  let state := List.replicate cfg.X 0
  let input_pairs := pairsOf bits
  let idx := getIndexes cfg
  match decodeFold idx.1 idx.2 input_pairs.reverse [⟨[], 0, state⟩] with
  | some paths =>
    match selectBest paths with
    | some best => some (decodeOut cfg.X best.bits)
    | none => none
  | none => none

/-! ## Specification-side notions used to state the claims -/

/-- ASCII alphanumeric code points (the characters the CLI collaborator
lets through to `encode`). -/
def isAlnumCode (n : Nat) : Prop :=
  (48 ≤ n ∧ n ≤ 57) ∨ (65 ≤ n ∧ n ≤ 90) ∨ (97 ≤ n ∧ n ≤ 122)

instance (n : Nat) : Decidable (isAlnumCode n) := by
  unfold isAlnumCode; infer_instance

/-- Bit `i` of `n` as a number (`0` or `1`). -/
def bitN (n i : Nat) : Nat := n / 2 ^ i % 2

/-- Xor of a list of numbers. -/
def xorFold (l : List Nat) : Nat := l.foldl (fun a b => a ^^^ b) 0

/-- The ideal output bit of tap list `taps` applied to buffer `buf`. -/
def outBit (taps : List Nat) (buf : List Nat) : Nat :=
  xorFold (taps.map (fun t => buf.getD t 0))

/-- The ideal output bit at window position `i` of a bit sequence `l`
(positions beyond the end read as `0`, the encoder's initial state). -/
def idealBit (taps : List Nat) (l : List Nat) (i : Nat) : Nat :=
  xorFold (taps.map (fun t => l.getD (i + t) 0))

/-- Hamming distance between two bit-pair values. -/
def dH2 (v w : Nat) : Nat := popcount (v ^^^ w)

/-- The register state reached after shifting in the bits of `hs` (most
recently shifted first), starting from the all-zero state of length `X`. -/
def sufState (X : Nat) (hs : List Nat) : List Nat :=
  (hs ++ List.replicate X 0).take X

/-- Cumulative branch metric of hypothesis bits `hs` (most recent decoding
step first) against the aligned received pairs. -/
def sufMetric (iy iz : List Nat) (X : Nat) : List Nat → List (Nat × Nat) → Nat
  | h :: hs, pr :: prs =>
    dH2 (2 * outBit iy (h :: sufState X hs) + outBit iz (h :: sufState X hs))
        (pairVal pr) + sufMetric iy iz X hs prs
  | _, _ => 0

/-- The combined input of the encoder: `X` flush zeros then the message bits. -/
def combined (s : List Nat) (cfg : Config) : List Nat :=
  List.replicate cfg.X 0 ++ s.flatMap byteBits

/-- The register contents at window position `m` during the reversed encoder
sweep: bits `m, m+1, …, m+X-1` of the combined sequence (zeros past its end). -/
def windowSt (X : Nat) (l : List Nat) (m : Nat) : List Nat :=
  (List.range X).map (fun t => l.getD (m + t) 0)

/-- The encoder output stream as ordered pairs `[y_i, z_i]`, the pair at
stream position `i` being computed from window `i` of the bit sequence `l`. -/
def idealPairs (iy iz : List Nat) (l : List Nat) (n : Nat) : List Nat :=
  (List.range n).flatMap (fun i => [idealBit iy l i, idealBit iz l i])

/-- One candidate extension of a survivor path by hypothesis bit `b`. -/
def extPath (iy iz : List Nat) (pr : Nat × Nat) (b : Nat) (p : PathT) : PathT :=
  ⟨b :: p.bits,
   p.err + dH2 (2 * outBit iy (b :: p.st) + outBit iz (b :: p.st)) (pairVal pr),
   b :: p.st.dropLast⟩

/-- Validity of a survivor path at a decoding stage whose remaining original
pairs are `suf`: the recorded bits, state, and metric are consistent. -/
def ValidP (iy iz : List Nat) (X : Nat) (suf : List (Nat × Nat)) (p : PathT) : Prop :=
  p.bits.length = suf.length ∧ (∀ b ∈ p.bits, b ≤ 1) ∧
    p.st = sufState X p.bits ∧ p.err = sufMetric iy iz X p.bits suf

/-- Completeness of a survivor set: every hypothesis bit sequence is covered
by some survivor in its end state with a metric at most the sequence's. -/
def CompleteP (iy iz : List Nat) (X : Nat) (suf : List (Nat × Nat))
    (paths : List PathT) : Prop :=
  ∀ hs : List Nat, hs.length = suf.length → (∀ b ∈ hs, b ≤ 1) →
    ∃ q ∈ paths, q.st = sufState X hs ∧ q.err ≤ sufMetric iy iz X hs suf

/-- The ideal pair stream re-encoded from hypothesis bits `hs`. -/
def cwOf (iy iz : List Nat) (X : Nat) : List Nat → List (Nat × Nat)
  | [] => []
  | h :: hs =>
    (outBit iy (h :: sufState X hs), outBit iz (h :: sufState X hs)) :: cwOf iy iz X hs

/-- Total Hamming distance between two aligned pair streams. -/
def seqDist : List (Nat × Nat) → List (Nat × Nat) → Nat
  | p :: ps, q :: qs => dH2 (pairVal p) (pairVal q) + seqDist ps qs
  | _, _ => 0

/-! ## Basic lemmas: binary digits and aligned patterns -/

theorem bitN_le_one (n i : Nat) : bitN n i ≤ 1 := by
  unfold bitN; omega

theorem bitN_zero (n : Nat) : bitN n 0 = n % 2 := by
  simp [bitN]

theorem bitN_succ (n d : Nat) : bitN n (d + 1) = bitN (n / 2) d := by
  unfold bitN
  rw [Nat.pow_succ, Nat.mul_comm, ← Nat.div_div_eq_div_mul]

theorem bitN_eq_zero_of_lt {n d : Nat} (h : n < 2 ^ d) : bitN n d = 0 := by
  unfold bitN
  rw [Nat.div_eq_of_lt h]

theorem binDigitsF_rev_getD :
    ∀ fuel n, n ≤ fuel → ∀ d, (binDigitsF fuel n).reverse.getD d 0 = bitN n d := by
  intro fuel
  induction fuel with
  | zero =>
    intro n hn d
    interval_cases n
    cases d <;> simp [binDigitsF, bitN]
  | succ f ih =>
    intro n hn d
    match n with
    | 0 => cases d <;> simp [binDigitsF, bitN]
    | 1 =>
      cases d with
      | zero => simp [binDigitsF, bitN]
      | succ d => rw [bitN_succ]; simp [binDigitsF, bitN]
    | n + 2 =>
      have hrec : binDigitsF (f + 1) (n + 2) = binDigitsF f ((n + 2) / 2) ++ [(n + 2) % 2] := by
        rfl
      rw [hrec, List.reverse_append]
      cases d with
      | zero => simp [bitN_zero]
      | succ d =>
        have hdiv : (n + 2) / 2 ≤ f := by omega
        simp only [List.reverse_cons, List.reverse_nil, List.nil_append,
          List.cons_append, List.getD_cons_succ]
        rw [ih _ hdiv d, bitN_succ]

theorem lt_two_pow_binDigitsF :
    ∀ fuel n, n ≤ fuel → n < 2 ^ (binDigitsF fuel n).length := by
  intro fuel
  induction fuel with
  | zero =>
    intro n hn
    interval_cases n
    simp [binDigitsF]
  | succ f ih =>
    intro n hn
    match n with
    | 0 => simp [binDigitsF]
    | 1 => simp [binDigitsF]
    | n + 2 =>
      have hrec : binDigitsF (f + 1) (n + 2) = binDigitsF f ((n + 2) / 2) ++ [(n + 2) % 2] := by
        rfl
      have hdiv : (n + 2) / 2 ≤ f := by omega
      have h2 := ih _ hdiv
      rw [hrec, List.length_append, List.length_singleton, Nat.pow_succ]
      omega

theorem getD_cons_zero_replicate : ∀ (m k : Nat), (0 :: List.replicate m 0).getD k 0 = 0 := by
  intro m k
  induction k generalizing m with
  | zero => rfl
  | succ k ih =>
    cases m with
    | zero => simp [List.getD]
    | succ m => simp

/-- Every position of the reversed padded pattern reads bit `d` of `P`. -/
theorem padded_rev_getD (k P : Nat) (d : Nat) :
    (List.replicate k 0 ++ 0 :: pyBin P).reverse.getD d 0 = bitN P d := by
  rw [List.reverse_append, List.reverse_cons]
  have hrep : (List.replicate k 0).reverse = List.replicate k 0 := List.reverse_replicate k 0
  rw [hrep]
  by_cases hd : d < (pyBin P).reverse.length
  · rw [List.append_assoc, List.getD_append _ _ _ _ hd]
    exact binDigitsF_rev_getD P P (le_refl P) d
  · push_neg at hd
    have hlen : (pyBin P).reverse.length = (pyBin P).length := List.length_reverse _
    have hbig : bitN P d = 0 := by
      apply bitN_eq_zero_of_lt
      have h1 : P < 2 ^ (pyBin P).length := lt_two_pow_binDigitsF P P (le_refl P)
      exact lt_of_lt_of_le h1 (Nat.pow_le_pow_right (by norm_num) (by omega))
    rw [List.append_assoc, List.getD_append_right _ _ _ _ hd, hbig]
    exact getD_cons_zero_replicate k _

/-- Aligned pattern extraction: the last `t` positions of the zero-padded
binary representation are the bits `t-1, …, 0` of `P` (for `t ≤ k + 1`, so
the padding always suffices). -/
theorem padDrop_eq (k t P : Nat) (ht : t ≤ k + 1) :
    (List.replicate k 0 ++ 0 :: pyBin P).drop
      ((List.replicate k 0 ++ 0 :: pyBin P).length - t) =
    (List.range t).map (fun i => bitN P (t - 1 - i)) := by
  set l := List.replicate k 0 ++ 0 :: pyBin P with hl
  have hlen : l.length = k + 1 + (pyBin P).length := by
    simp [hl, List.length_append, List.length_replicate]
    omega
  have hle : t ≤ l.length := by omega
  apply List.ext_getElem
  · simp only [List.length_drop, List.length_map, List.length_range]
    omega
  · intro i h1 h2
    rw [List.length_drop] at h1
    have hi : i < t := by omega
    have hidx : l.length - t + i < l.length := by omega
    rw [List.getElem_drop, List.getElem_map, List.getElem_range]
    have h3 : t - 1 - i < l.reverse.length := by
      rw [List.length_reverse]; omega
    have hrev : l[l.length - t + i] = l.reverse.getD (t - 1 - i) 0 := by
      rw [List.getD_eq_getElem _ _ h3, List.getElem_reverse]
      have hix : l.length - 1 - (t - 1 - i) = l.length - t + i := by omega
      simp only [hix]
    rw [hrev, padded_rev_getD]

theorem schemePattern_eq (X P : Nat) :
    schemePattern X P = (List.range (X + 1)).map (fun i => bitN P (X - i)) := by
  have h := padDrop_eq X (X + 1) P (le_refl _)
  simp only [schemePattern]
  rw [h]
  apply List.map_congr_left
  intro i _
  rfl

theorem byteBits_eq (c : Nat) :
    byteBits c = (List.range 8).map (fun i => bitN c (7 - i)) := by
  have h := padDrop_eq 8 8 c (by norm_num)
  simp only [byteBits]
  rw [h]

theorem byteBits_length (c : Nat) : (byteBits c).length = 8 := by
  rw [byteBits_eq]; simp

theorem byteBits_le_one (c : Nat) : ∀ b ∈ byteBits c, b ≤ 1 := by
  rw [byteBits_eq]
  intro b hb
  obtain ⟨i, _, rfl⟩ := List.mem_map.1 hb
  exact bitN_le_one _ _

/-! ## Tap set characterization (`getIndexes`) -/

theorem filterMap_if_eq_filter (f : Nat → Nat) (l : List Nat) :
    l.filterMap (fun i => if f i = 1 then some i else none)
      = l.filter (fun i => f i == 1) := by
  induction l with
  | nil => rfl
  | cons a l ih =>
    by_cases h : f a = 1 <;> simp [List.filterMap_cons, List.filter_cons, h, ih]

theorem onesIdx_map_range (t : Nat) (f : Nat → Nat) :
    onesIdx ((List.range t).map f) = (List.range t).filter (fun i => f i == 1) := by
  unfold onesIdx
  rw [List.enum_eq_zip_range, List.length_map, List.length_range]
  have hz : (List.range t).zip ((List.range t).map f)
      = (List.range t).map (fun i => (i, f i)) := by
    have := List.zip_map' (fun i : Nat => i) f (List.range t)
    simpa using this
  rw [hz, List.filterMap_map]
  exact filterMap_if_eq_filter f (List.range t)

theorem getIndexes_eq (cfg : Config) :
    getIndexes cfg
      = ((List.range (cfg.X + 1)).filter (fun i => bitN cfg.Y (cfg.X - i) == 1),
         (List.range (cfg.X + 1)).filter (fun i => bitN cfg.Z (cfg.X - i) == 1)) := by
  unfold getIndexes
  rw [schemePattern_eq, schemePattern_eq, onesIdx_map_range, onesIdx_map_range]

theorem getIndexes_fst_bounded (cfg : Config) : ∀ t ∈ (getIndexes cfg).1, t ≤ cfg.X := by
  rw [getIndexes_eq]
  intro t ht
  have := (List.mem_filter.1 ht).1
  have := List.mem_range.1 this
  omega

theorem getIndexes_snd_bounded (cfg : Config) : ∀ t ∈ (getIndexes cfg).2, t ≤ cfg.X := by
  rw [getIndexes_eq]
  intro t ht
  have := (List.mem_filter.1 ht).1
  have := List.mem_range.1 this
  omega

/-- A polynomial with a nonzero residue modulo `2^(X+1)` yields a nonempty
tap list. -/
theorem taps_ne_nil (X P : Nat) (h : P % 2 ^ (X + 1) ≠ 0) :
    (List.range (X + 1)).filter (fun i => bitN P (X - i) == 1) ≠ [] := by
  intro hnil
  apply h
  have hall : ∀ i ∈ List.range (X + 1), ¬(bitN P (X - i) == 1) = true :=
    List.filter_eq_nil_iff.1 hnil
  apply Nat.eq_of_testBit_eq
  intro j
  rw [Nat.zero_testBit]
  by_cases hj : j < X + 1
  · rw [Nat.testBit_mod_two_pow]
    simp only [Bool.and_eq_false_imp]
    have hmem : X - j ∈ List.range (X + 1) := List.mem_range.2 (by omega)
    have hb := hall _ hmem
    have hXj : X - (X - j) = j := by omega
    rw [hXj] at hb
    intro _
    have h01 : bitN P j = 0 ∨ bitN P j = 1 := by
      have := bitN_le_one P j; omega
    rcases h01 with h0 | h1
    · rw [Nat.testBit_to_div_mod]
      unfold bitN at h0
      simp [h0]
    · exact absurd (by simp [h1]) hb
  · apply Nat.testBit_eq_false_of_lt
    calc P % 2 ^ (X + 1) < 2 ^ (X + 1) := Nat.mod_lt _ (Nat.pos_pow_of_pos _ (by norm_num))
    _ ≤ 2 ^ j := Nat.pow_le_pow_right (by norm_num) (by omega)

/-! ## Branch output basic facts -/

theorem pyReduceXor_eq (l : List Nat) (h : l ≠ []) : pyReduceXor l = some (xorFold l) := by
  cases l with
  | nil => exact absurd rfl h
  | cons x xs => simp [pyReduceXor, xorFold, Nat.zero_xor]

theorem calculateOutput_eq (b : Nat) (st : List Nat) (iy iz : List Nat) (res : List Nat)
    (hiy : iy ≠ []) (hiz : iz ≠ []) :
    calculateOutput b st iy iz res
      = some (outBit iy (b :: st) :: outBit iz (b :: st) :: res) := by
  simp only [calculateOutput]
  rw [pyReduceXor_eq _ (by simpa using hiy), pyReduceXor_eq _ (by simpa using hiz)]
  rfl

/-! ## Encoder closed form -/

theorem pyPop_eq (l : List Nat) (h : l ≠ []) : pyPop l = some l.dropLast := by
  cases l with
  | nil => exact absurd rfl h
  | cons a l => rfl

theorem windowSt_length (X : Nat) (l : List Nat) (m : Nat) :
    (windowSt X l m).length = X := by
  simp [windowSt]

theorem windowSt_getD (X : Nat) (l : List Nat) (m t : Nat) (ht : t < X) :
    (windowSt X l m).getD t 0 = l.getD (m + t) 0 := by
  unfold windowSt
  rw [List.getD_eq_getElem _ _ (by simpa using ht)]
  simp

theorem buffer_window_getD (X : Nat) (l : List Nat) (m : Nat) (hm : m < l.length)
    (t : Nat) (ht : t ≤ X) :
    (l[m] :: windowSt X l (m + 1)).getD t 0 = l.getD (m + t) 0 := by
  cases t with
  | zero =>
    simp only [List.getD_cons_zero, Nat.add_zero]
    exact (List.getD_eq_getElem _ _ hm).symm
  | succ t =>
    rw [List.getD_cons_succ, windowSt_getD _ _ _ _ (by omega)]
    congr 1
    omega

theorem outBit_buffer (taps : List Nat) (X : Nat) (l : List Nat) (m : Nat)
    (hm : m < l.length) (hb : ∀ t ∈ taps, t ≤ X) :
    outBit taps (l[m] :: windowSt X l (m + 1)) = idealBit taps l m := by
  unfold outBit idealBit
  congr 1
  apply List.map_congr_left
  intro t ht
  exact buffer_window_getD X l m hm t (hb t ht)

theorem windowSt_shift (X : Nat) (hX : 0 < X) (l : List Nat) (m : Nat)
    (hm : m < l.length) :
    l[m] :: (windowSt X l (m + 1)).dropLast = windowSt X l m := by
  apply List.ext_getElem
  · simp only [List.length_cons, List.length_dropLast, windowSt_length]
    omega
  · intro i h1 h2
    have hi : i < X := by
      rw [windowSt_length] at h2
      exact h2
    cases i with
    | zero =>
      simp only [List.getElem_cons_zero]
      have hb0 : 0 < (windowSt X l m).length := by rw [windowSt_length]; omega
      have h0 : (windowSt X l m)[0] = l.getD (m + 0) 0 := by
        rw [← List.getD_eq_getElem (windowSt X l m) 0 hb0]
        exact windowSt_getD X l m 0 hX
      rw [h0, Nat.add_zero]
      exact (List.getD_eq_getElem _ _ hm).symm
    | succ i =>
      simp only [List.getElem_cons_succ, List.getElem_dropLast]
      have hbl : i < (windowSt X l (m + 1)).length := by rw [windowSt_length]; omega
      have hlhs : (windowSt X l (m + 1))[i] = l.getD (m + 1 + i) 0 := by
        rw [← List.getD_eq_getElem (windowSt X l (m + 1)) 0 hbl]
        exact windowSt_getD X l (m + 1) i (by omega)
      have hbr2 : i + 1 < (windowSt X l m).length := by rw [windowSt_length]; omega
      have hrhs : (windowSt X l m)[i + 1] = l.getD (m + (i + 1)) 0 := by
        rw [← List.getD_eq_getElem (windowSt X l m) 0 hbr2]
        exact windowSt_getD X l m (i + 1) hi
      rw [hlhs, hrhs]
      congr 1
      omega

theorem windowSt_past_end (X : Nat) (l : List Nat) :
    List.replicate X 0 = windowSt X l l.length := by
  apply List.ext_getElem
  · simp [windowSt]
  · intro i h1 h2
    rw [List.getElem_replicate]
    unfold windowSt
    rw [List.getElem_map, List.getElem_range]
    rw [List.getD_eq_default]
    omega

theorem encodeSteps_cons_eq {iy iz : List Nat} {b : Nat} {state res rest res2 st2 : List Nat}
    (h1 : calculateOutput b state iy iz res = some res2) (h2 : pyPop state = some st2) :
    encodeSteps iy iz (b :: rest) state res = encodeSteps iy iz rest (b :: st2) res2 := by
  simp only [encodeSteps, h1, h2]

theorem encodeSteps_cons_none_left {iy iz : List Nat} {b : Nat} {state res rest : List Nat}
    (h : calculateOutput b state iy iz res = none) :
    encodeSteps iy iz (b :: rest) state res = none := by
  simp only [encodeSteps, h]

theorem encodeSteps_cons_none_pop {iy iz : List Nat} {b : Nat} {state res rest : List Nat}
    (h : pyPop state = none) :
    encodeSteps iy iz (b :: rest) state res = none := by
  cases hco : calculateOutput b state iy iz res <;> simp only [encodeSteps, hco, h]

theorem encodeSteps_closed (X : Nat) (hX : 0 < X) (iy iz : List Nat)
    (hiy : iy ≠ []) (hiz : iz ≠ [])
    (hby : ∀ t ∈ iy, t ≤ X) (hbz : ∀ t ∈ iz, t ≤ X) (l : List Nat) :
    ∀ m, m ≤ l.length → ∀ acc,
      encodeSteps iy iz ((l.take m).reverse) (windowSt X l m) acc
        = some (idealPairs iy iz l m ++ acc) := by
  intro m
  induction m with
  | zero =>
    intro _ acc
    simp [encodeSteps, idealPairs]
  | succ m ih =>
    intro hm acc
    have hmlt : m < l.length := by omega
    have htake : (l.take (m + 1)).reverse = l[m] :: (l.take m).reverse := by
      rw [List.take_succ]
      simp [List.getElem?_eq_getElem hmlt]
    rw [htake]
    have hco := calculateOutput_eq (l[m]) (windowSt X l (m + 1)) iy iz acc hiy hiz
    rw [outBit_buffer iy X l m hmlt hby, outBit_buffer iz X l m hmlt hbz] at hco
    have hwne : windowSt X l (m + 1) ≠ [] := by
      intro hc
      have := windowSt_length X l (m + 1)
      rw [hc] at this
      simp at this
      omega
    have hpop := pyPop_eq (windowSt X l (m + 1)) hwne
    rw [encodeSteps_cons_eq hco hpop, windowSt_shift X hX l m hmlt, ih (by omega)]
    simp only [Option.some.injEq]
    rw [idealPairs, idealPairs, List.range_succ, List.flatMap_append, List.append_assoc]
    rfl

theorem combined_length (s : List Nat) (cfg : Config) :
    (combined s cfg).length = cfg.X + 8 * s.length := by
  unfold combined
  rw [List.length_append, List.length_replicate]
  congr 1
  induction s with
  | nil => rfl
  | cons c s ih =>
    rw [List.flatMap_cons, List.length_append, byteBits_length, ih, List.length_cons]
    ring

theorem encode_closed (s : List Nat) (cfg : Config) (hX : 0 < cfg.X)
    (hiy : (getIndexes cfg).1 ≠ []) (hiz : (getIndexes cfg).2 ≠ []) :
    encode s cfg
      = some (idealPairs (getIndexes cfg).1 (getIndexes cfg).2 (combined s cfg)
          (combined s cfg).length) := by
  have hstep := encodeSteps_closed cfg.X hX (getIndexes cfg).1 (getIndexes cfg).2 hiy hiz
    (getIndexes_fst_bounded cfg) (getIndexes_snd_bounded cfg) (combined s cfg)
    (combined s cfg).length (le_refl _) []
  rw [List.take_length, ← windowSt_past_end, List.append_nil] at hstep
  exact hstep

theorem encode_some_inv (s : List Nat) (cfg : Config) (out : List Nat)
    (h : encode s cfg = some out) :
    (combined s cfg = [] ∧ out = []) ∨
      (0 < cfg.X ∧ (getIndexes cfg).1 ≠ [] ∧ (getIndexes cfg).2 ≠ []) := by
  have hbody : encode s cfg
      = encodeSteps (getIndexes cfg).1 (getIndexes cfg).2 (combined s cfg).reverse
          (List.replicate cfg.X 0) [] := rfl
  by_cases hc : combined s cfg = []
  · left
    refine ⟨hc, ?_⟩
    rw [hbody, hc] at h
    simp only [List.reverse_nil, encodeSteps, Option.some.injEq] at h
    exact h.symm
  · right
    obtain ⟨b, rest, hbr⟩ : ∃ b rest, (combined s cfg).reverse = b :: rest := by
      cases hrev : (combined s cfg).reverse with
      | nil =>
        exfalso
        apply hc
        have := congrArg List.reverse hrev
        simpa using this
      | cons b rest => exact ⟨b, rest, rfl⟩
    rw [hbody, hbr] at h
    have hX : 0 < cfg.X := by
      by_contra h0
      have hX0 : cfg.X = 0 := by omega
      rw [hX0] at h
      rw [encodeSteps_cons_none_pop (show pyPop (List.replicate 0 0) = none from rfl)] at h
      exact Option.noConfusion h
    have hy : (getIndexes cfg).1 ≠ [] := by
      intro hnil
      have hnone : calculateOutput b (List.replicate cfg.X 0) (getIndexes cfg).1
          (getIndexes cfg).2 [] = none := by
        rw [hnil]
        rfl
      rw [encodeSteps_cons_none_left hnone] at h
      exact Option.noConfusion h
    have hz : (getIndexes cfg).2 ≠ [] := by
      intro hnil
      have hnone : calculateOutput b (List.replicate cfg.X 0) (getIndexes cfg).1
          (getIndexes cfg).2 [] = none := by
        simp only [calculateOutput, hnil, List.map_nil]
        cases hopt : pyReduceXor (List.map
            (fun idx => (b :: List.replicate cfg.X 0).getD idx 0) (getIndexes cfg).1) <;>
          simp [hopt, pyReduceXor]
      rw [encodeSteps_cons_none_left hnone] at h
      exact Option.noConfusion h
    exact ⟨hX, hy, hz⟩

theorem idealPairs_length (iy iz : List Nat) (l : List Nat) (n : Nat) :
    (idealPairs iy iz l n).length = 2 * n := by
  induction n with
  | zero => rfl
  | succ n ih =>
    rw [idealPairs, List.range_succ, List.flatMap_append, List.length_append]
    rw [idealPairs] at ih
    rw [ih]
    simp
    ring

/-! ## Claims C2, C3, C4, C7 -/

theorem bitN_beq_testBit (P k : Nat) : (bitN P k == 1) = Nat.testBit P k := by
  rw [Bool.eq_iff_iff]
  simp [bitN, Nat.testBit_to_div_mod]

/-- C7: for every polynomial `P > 0` and register length `X > 0`, `getIndexes`
returns exactly the positions `i` in `0..X` at which the binary pattern of the
polynomial aligned to exactly `X+1` bits has a `1`, i.e. the positions with
`Nat.testBit P (X - i)` — which left-zero-pads short patterns and silently
truncates bits above position `X`; position `0` is the pattern's most
significant bit (the newly shifted-in bit). -/
theorem C7_getIndexes_alignment (cfg : Config) (hX : 0 < cfg.X)
    (hY : 0 < cfg.Y) (hZ : 0 < cfg.Z) :
    (getIndexes cfg).1
        = (List.range (cfg.X + 1)).filter (fun i => Nat.testBit cfg.Y (cfg.X - i)) ∧
      (getIndexes cfg).2
        = (List.range (cfg.X + 1)).filter (fun i => Nat.testBit cfg.Z (cfg.X - i)) := by
  simp only [getIndexes_eq]
  constructor <;>
    · apply List.filter_congr
      intro i _
      exact bitN_beq_testBit _ _

/-- Witness for C7 at the default configuration `[5, 53, 46]`. -/
theorem C7_witness :
    (getIndexes defaultConfig).1
        = (List.range 6).filter (fun i => Nat.testBit 53 (5 - i)) ∧
      (getIndexes defaultConfig).2
        = (List.range 6).filter (fun i => Nat.testBit 46 (5 - i)) :=
  C7_getIndexes_alignment defaultConfig (by decide) (by decide) (by decide)

/-- C3 counterexample: with `X = 1 > 0` and polynomial `P = 4 > 0` the low
`X+1 = 2` bits of the polynomial are all zero, so the derived tap set is
empty and the XOR-reduction in the branch-output function is applied to an
empty list (Python raises `TypeError`, modelled as `none`).  This refutes
the claim that the tap set is non-empty for every `X > 0` and `P > 0`. -/
theorem C3_counterexample :
    (getIndexes ⟨1, 4, 4⟩).1 = [] ∧
      calculateOutput 0 [0] (getIndexes ⟨1, 4, 4⟩).1 (getIndexes ⟨1, 4, 4⟩).2 [] = none := by
  decide

/-- C3 (amended): for every register length `X > 0` and generator polynomials
whose low `X+1` bits are not all zero (`P % 2^(X+1) ≠ 0`), the tap sets
derived by `getIndexes` are non-empty, so the XOR-reduction in the
branch-output function is applied to at least one index and never to an
empty list (`calculateOutput` always succeeds). -/
theorem C3_tap_sets_nonempty (cfg : Config) (hX : 0 < cfg.X)
    (hY : cfg.Y % 2 ^ (cfg.X + 1) ≠ 0) (hZ : cfg.Z % 2 ^ (cfg.X + 1) ≠ 0) :
    (getIndexes cfg).1 ≠ [] ∧ (getIndexes cfg).2 ≠ [] ∧
      ∀ b st res, (calculateOutput b st (getIndexes cfg).1 (getIndexes cfg).2 res).isSome := by
  have h1 : (getIndexes cfg).1 ≠ [] := by
    simp only [getIndexes_eq]
    exact taps_ne_nil _ _ hY
  have h2 : (getIndexes cfg).2 ≠ [] := by
    simp only [getIndexes_eq]
    exact taps_ne_nil _ _ hZ
  refine ⟨h1, h2, ?_⟩
  intro b st res
  rw [calculateOutput_eq b st _ _ res h1 h2]
  rfl

/-- Witness for the amended C3 at the default configuration. -/
theorem C3_witness :
    (getIndexes defaultConfig).1 ≠ [] ∧ (getIndexes defaultConfig).2 ≠ [] ∧
      ∀ b st res,
        (calculateOutput b st (getIndexes defaultConfig).1
          (getIndexes defaultConfig).2 res).isSome :=
  C3_tap_sets_nonempty defaultConfig (by decide) (by decide) (by decide)

/-- C4 counterexample: the valid configuration `[1, 4, 4]` has empty tap
sets, so `encode` raises (returns `none`) instead of producing a stream of
length `2*(X + 8*|s|) = 18` on the one-character message `"A"`. -/
theorem C4_counterexample :
    (encode [65] ⟨1, 4, 4⟩).map List.length ≠ some (2 * (1 + 8 * 1)) := by
  decide

/-- C4 (amended): for every input string and every config with `X > 0` whose
two tap sets are non-empty (low `X+1` bits of `Y` and of `Z` not all zero),
the output of `encode` has length exactly `2*(X + 8*|s|)`; in particular
encoding the empty string emits exactly `2*X` bits. -/
theorem C4_length_law (s : List Nat) (cfg : Config) (hX : 0 < cfg.X)
    (hY : cfg.Y % 2 ^ (cfg.X + 1) ≠ 0) (hZ : cfg.Z % 2 ^ (cfg.X + 1) ≠ 0) :
    (encode s cfg).map List.length = some (2 * (cfg.X + 8 * s.length)) := by
  have h1 : (getIndexes cfg).1 ≠ [] := by
    simp only [getIndexes_eq]
    exact taps_ne_nil _ _ hY
  have h2 : (getIndexes cfg).2 ≠ [] := by
    simp only [getIndexes_eq]
    exact taps_ne_nil _ _ hZ
  rw [encode_closed s cfg hX h1 h2]
  simp [idealPairs_length, combined_length]

/-- Witness for the amended C4: `encode "A"` has 26 bits by the length law. -/
theorem C4_witness : (encode [65] defaultConfig).map List.length = some 26 := by
  have h := C4_length_law [65] defaultConfig (by decide) (by decide) (by decide)
  simpa using h

/-- C2: whenever `encode` returns a bit stream, the stream is the
concatenation over combined-sequence positions `i = 0, …, X+N-1` (position
`0` = the first flush zero, positions `X, …, X+N-1` = the message bits in
original order) of the 2-bit pairs `[y_i, z_i]` computed while consuming
bit `i`: the pair of the first flush zero comes first, message pairs follow
in message order, the pair of the message's last bit comes last, and inside
every pair the upper-scheme bit `y` precedes the lower-scheme bit `z`. -/
theorem C2_encode_pair_order (s : List Nat) (cfg : Config) (out : List Nat)
    (h : encode s cfg = some out) :
    out = idealPairs (getIndexes cfg).1 (getIndexes cfg).2 (combined s cfg)
        (cfg.X + 8 * s.length) := by
  rcases encode_some_inv s cfg out h with ⟨hc, hout⟩ | ⟨hX, hiy, hiz⟩
  · have hlen := combined_length s cfg
    rw [hc] at hlen
    simp only [List.length_nil] at hlen
    have hz : cfg.X + 8 * s.length = 0 := by omega
    rw [hout, hz]
    rfl
  · rw [encode_closed s cfg hX hiy hiz] at h
    have h2 := Option.some.inj h
    rw [← h2, combined_length]

/-- Witness for C2: the 26-bit encoding of `"A"` under the default
configuration is exactly the ordered pair stream. -/
theorem C2_witness :
    [0, 0, 1, 0, 0, 1, 1, 1, 0, 1, 1, 0, 1, 1, 1, 0, 0, 1, 1, 1, 0, 1, 1, 0, 1, 1]
      = idealPairs (getIndexes defaultConfig).1 (getIndexes defaultConfig).2
          (combined [65] defaultConfig) (5 + 8 * 1) :=
  C2_encode_pair_order [65] defaultConfig _ (by decide)

/-! ## Hamming distance and xor basics -/

theorem popCountF_pos : ∀ fuel n, n ≤ fuel → n ≠ 0 → 0 < popCountF fuel n := by
  intro fuel
  induction fuel with
  | zero => intro n hn h0; omega
  | succ f ih =>
    intro n hn h0
    match n with
    | n + 1 =>
      have heq : popCountF (f + 1) (n + 1) = (n + 1) % 2 + popCountF f ((n + 1) / 2) := rfl
      rw [heq]
      by_cases hpar : (n + 1) % 2 = 1
      · omega
      · have h2 : (n + 1) / 2 ≠ 0 := by omega
        have h3 : (n + 1) / 2 ≤ f := by omega
        have := ih _ h3 h2
        omega

theorem popcount_pos (n : Nat) (h : n ≠ 0) : 0 < popcount n :=
  popCountF_pos n n (le_refl n) h

theorem dH2_eq_zero_iff (v w : Nat) : dH2 v w = 0 ↔ v = w := by
  constructor
  · intro h
    by_contra hne
    have hx : v ^^^ w ≠ 0 := fun hc => hne (Nat.xor_eq_zero.1 hc)
    have := popcount_pos _ hx
    unfold dH2 at h
    omega
  · intro h
    subst h
    unfold dH2
    rw [Nat.xor_self]
    rfl

theorem dH2_triangle4 : ∀ a < 4, ∀ b < 4, ∀ c < 4, dH2 a c ≤ dH2 a b + dH2 b c := by decide

theorem dH2_le_two4 : ∀ a < 4, ∀ b < 4, dH2 a b ≤ 2 := by decide

theorem foldl_xor_init (l : List Nat) : ∀ a, l.foldl (fun x y => x ^^^ y) a = a ^^^ xorFold l := by
  induction l with
  | nil =>
    intro a
    simp [xorFold]
  | cons b l ih =>
    intro a
    show l.foldl _ (a ^^^ b) = a ^^^ xorFold (b :: l)
    rw [ih (a ^^^ b)]
    have hb : xorFold (b :: l) = b ^^^ xorFold l := by
      show l.foldl _ (0 ^^^ b) = _
      rw [ih (0 ^^^ b), Nat.zero_xor]
    rw [hb, Nat.xor_assoc]

theorem xorFold_cons (b : Nat) (l : List Nat) : xorFold (b :: l) = b ^^^ xorFold l := by
  show l.foldl _ (0 ^^^ b) = _
  rw [foldl_xor_init, Nat.zero_xor]

theorem xor_left_comm (a b c : Nat) : a ^^^ (b ^^^ c) = b ^^^ (a ^^^ c) := by
  rw [← Nat.xor_assoc, Nat.xor_comm a b, Nat.xor_assoc]

theorem xorFold_perm {l1 l2 : List Nat} (p : l1.Perm l2) : xorFold l1 = xorFold l2 := by
  induction p with
  | nil => rfl
  | cons x p ih => rw [xorFold_cons, xorFold_cons, ih]
  | swap x y l => rw [xorFold_cons, xorFold_cons, xorFold_cons, xorFold_cons, xor_left_comm]
  | trans p q ih1 ih2 => rw [ih1, ih2]

theorem xor_le_one {a b : Nat} (ha : a ≤ 1) (hb : b ≤ 1) : a ^^^ b ≤ 1 := by
  interval_cases a <;> interval_cases b <;> decide

theorem xorFold_le_one {l : List Nat} (h : ∀ b ∈ l, b ≤ 1) : xorFold l ≤ 1 := by
  induction l with
  | nil => decide
  | cons b l ih =>
    rw [xorFold_cons]
    exact xor_le_one (h b (by simp)) (ih (fun x hx => h x (by simp [hx])))

theorem getD_le_one {l : List Nat} (h : ∀ b ∈ l, b ≤ 1) (t : Nat) : l.getD t 0 ≤ 1 := by
  by_cases ht : t < l.length
  · rw [List.getD_eq_getElem _ _ ht]
    exact h _ (l.getElem_mem ht)
  · rw [List.getD_eq_default _ _ (by omega)]
    omega

theorem outBit_le_one (taps : List Nat) (buf : List Nat) (h : ∀ b ∈ buf, b ≤ 1) :
    outBit taps buf ≤ 1 := by
  apply xorFold_le_one
  intro b hb
  obtain ⟨t, _, rfl⟩ := List.mem_map.1 hb
  exact getD_le_one h t

theorem xorFold_eq_zero {l : List Nat} (h : ∀ x ∈ l, x = 0) : xorFold l = 0 := by
  induction l with
  | nil => rfl
  | cons b l ih =>
    rw [xorFold_cons, h b (by simp), Nat.zero_xor]
    exact ih (fun x hx => h x (by simp [hx]))

/-- Folded xor of two maps that agree except at one index occurring exactly
once reduces to the xor of the two differing values. -/
theorem xorFold_single_diff (T : List Nat) (hnd : T.Nodup) (t0 : Nat) (ht0 : t0 ∈ T)
    (f g : Nat → Nat) (hagree : ∀ t ∈ T, t ≠ t0 → f t = g t) :
    (xorFold (T.map f)) ^^^ (xorFold (T.map g)) = (f t0) ^^^ (g t0) := by
  have hmapxor : ∀ (T : List Nat),
      (xorFold (T.map f)) ^^^ (xorFold (T.map g))
        = xorFold (T.map (fun t => (f t) ^^^ (g t))) := by
    intro T
    induction T with
    | nil => simp [xorFold]
    | cons t T ih =>
      simp only [List.map_cons]
      rw [xorFold_cons, xorFold_cons, xorFold_cons, ← ih]
      rw [Nat.xor_assoc, Nat.xor_assoc]
      congr 1
      rw [xor_left_comm]
  rw [hmapxor]
  have hperm : T.Perm (t0 :: T.erase t0) := List.perm_cons_erase ht0
  rw [xorFold_perm (hperm.map _)]
  simp only [List.map_cons]
  rw [xorFold_cons]
  have hz : xorFold ((T.erase t0).map fun t => (f t) ^^^ (g t)) = 0 := by
    apply xorFold_eq_zero
    intro x hx
    obtain ⟨t, ht, rfl⟩ := List.mem_map.1 hx
    have htmem : t ∈ T := List.mem_of_mem_erase ht
    have htne : t ≠ t0 := by
      intro hc
      subst hc
      exact hnd.not_mem_erase ht
    rw [hagree t htmem htne, Nat.xor_self]
  rw [hz, Nat.xor_zero]

/-! ## State-suffix lemmas -/

theorem replicate_zero_getD (X k : Nat) : (List.replicate X 0).getD k 0 = 0 := by
  by_cases hk : k < X
  · rw [List.getD_eq_getElem _ _ (by simpa using hk), List.getElem_replicate]
  · rw [List.getD_eq_default _ _ (by simpa using hk)]

theorem append_replicate_getD (X : Nat) (hs : List Nat) (u : Nat) :
    (hs ++ List.replicate X 0).getD u 0 = hs.getD u 0 := by
  by_cases hu : u < hs.length
  · rw [List.getD_append _ _ _ _ hu]
  · rw [List.getD_append_right _ _ _ _ (by omega), replicate_zero_getD,
      List.getD_eq_default _ _ (by omega)]

theorem sufState_length (X : Nat) (hs : List Nat) : (sufState X hs).length = X := by
  unfold sufState
  rw [List.length_take, List.length_append, List.length_replicate]
  omega

theorem sufState_nil (X : Nat) : sufState X [] = List.replicate X 0 := by
  unfold sufState
  rw [List.nil_append, List.take_replicate]
  simp

theorem sufState_ne_nil (X : Nat) (hX : 0 < X) (hs : List Nat) : sufState X hs ≠ [] := by
  intro hc
  have := sufState_length X hs
  rw [hc] at this
  simp at this
  omega

theorem sufState_getD (X : Nat) (hs : List Nat) (u : Nat) (hu : u < X) :
    (sufState X hs).getD u 0 = hs.getD u 0 := by
  unfold sufState
  have hmlen : u < (hs ++ List.replicate X 0).length := by
    rw [List.length_append, List.length_replicate]
    omega
  have h1 : u < (List.take X (hs ++ List.replicate X 0)).length := by
    rw [List.length_take]
    exact Nat.lt_min.2 ⟨hu, hmlen⟩
  rw [List.getD_eq_getElem _ _ h1, List.getElem_take, ← List.getD_eq_getElem _ _ hmlen,
    append_replicate_getD]

theorem sufState_cons (X : Nat) (hX : 0 < X) (b : Nat) (hs : List Nat) :
    sufState X (b :: hs) = b :: (sufState X hs).dropLast := by
  obtain ⟨X0, rfl⟩ : ∃ X0, X = X0 + 1 := ⟨X - 1, by omega⟩
  unfold sufState
  rw [List.cons_append, List.take_succ_cons]
  congr 1
  have hlen : X0 + 1 ≤ (hs ++ List.replicate (X0 + 1) 0).length := by
    rw [List.length_append, List.length_replicate]
    omega
  rw [List.dropLast_eq_take, List.length_take, Nat.min_eq_left hlen, List.take_take]
  congr 1
  omega

/-- The buffer read of `bit :: sufState X rest` agrees with the padded
hypothesis sequence for every position up to `X`. -/
theorem cons_sufState_getD (X : Nat) (b : Nat) (hs : List Nat) (u : Nat) (hu : u ≤ X) :
    (b :: sufState X hs).getD u 0 = (b :: hs).getD u 0 := by
  cases u with
  | zero => rfl
  | succ u =>
    rw [List.getD_cons_succ, List.getD_cons_succ]
    exact sufState_getD X hs u (by omega)

/-! ## One decoding step: candidate extensions -/

theorem calculateHammingDist_eq (b : Nat) (st : List Nat) (iy iz : List Nat)
    (pr : Nat × Nat) (hiy : iy ≠ []) (hiz : iz ≠ []) :
    calculateHammingDist b st iy iz pr
      = some (dH2 (2 * outBit iy (b :: st) + outBit iz (b :: st)) (pairVal pr)) := by
  unfold calculateHammingDist
  rw [calculateOutput_eq _ _ _ _ _ hiy hiz]
  rfl

theorem eval_step_eq (p : PathT) (iy iz : List Nat) (pr : Nat × Nat)
    (hiy : iy ≠ []) (hiz : iz ≠ []) (hst : p.st ≠ []) :
    eval_step p iy iz pr = some [extPath iy iz pr 0 p, extPath iy iz pr 1 p] := by
  unfold eval_step
  rw [pyPop_eq _ hst, calculateHammingDist_eq _ _ _ _ _ hiy hiz,
    calculateHammingDist_eq _ _ _ _ _ hiy hiz]
  rfl

theorem extendAll_eq (iy iz : List Nat) (pr : Nat × Nat) (paths : List PathT)
    (hiy : iy ≠ []) (hiz : iz ≠ []) (hst : ∀ p ∈ paths, p.st ≠ []) :
    extendAll iy iz pr paths
      = some (paths.flatMap (fun p => [extPath iy iz pr 0 p, extPath iy iz pr 1 p])) := by
  induction paths with
  | nil => rfl
  | cons p ps ih =>
    rw [List.flatMap_cons]
    simp only [extendAll]
    rw [eval_step_eq p iy iz pr hiy hiz (hst p (by simp)),
      ih (fun q hq => hst q (by simp [hq]))]

/-! ## Reduction phase: sort, group, first-minimum -/

theorem insertByState_perm (x : PathT) (l : List PathT) :
    (insertByState x l).Perm (x :: l) := by
  induction l with
  | nil => exact List.Perm.refl _
  | cons y ys ih =>
    unfold insertByState
    by_cases h : stateLeB x.st y.st
    · rw [if_pos h]
    · rw [if_neg h]
      exact (ih.cons y).trans (List.Perm.swap x y ys)

theorem sortPaths_perm (l : List PathT) : (sortPaths l).Perm l := by
  induction l with
  | nil => exact List.Perm.refl _
  | cons x xs ih =>
    exact (insertByState_perm x (sortPaths xs)).trans (ih.cons x)

theorem groupRuns_flatten : ∀ l : List PathT, (groupRuns l).flatten = l := by
  intro l
  induction l with
  | nil => rfl
  | cons x xs ih =>
    cases hg : groupRuns xs with
    | nil =>
      rw [hg] at ih
      simp only [groupRuns, hg, List.flatten]
      simp only [List.flatten] at ih
      simp [← ih]
    | cons g gs =>
      cases g with
      | nil =>
        rw [hg] at ih
        simp only [groupRuns, hg]
        simp only [List.flatten_cons, List.nil_append] at ih
        simp [List.flatten_cons, ih]
      | cons y g2 =>
        rw [hg] at ih
        by_cases hxy : x.st = y.st
        · simp only [groupRuns, hg, if_pos hxy]
          simp only [List.flatten_cons] at ih ⊢
          simp [ih]
        · simp only [groupRuns, hg, if_neg hxy]
          simp only [List.flatten_cons] at ih ⊢
          simp [ih]

theorem groupRuns_same_st :
    ∀ l : List PathT, ∀ g ∈ groupRuns l, ∃ s, ∀ a ∈ g, a.st = s := by
  intro l
  induction l with
  | nil => intro g hg; simp [groupRuns] at hg
  | cons x xs ih =>
    intro g hg
    cases hgr : groupRuns xs with
    | nil =>
      simp only [groupRuns, hgr, List.mem_singleton] at hg
      subst hg
      exact ⟨x.st, by simp⟩
    | cons g0 gs =>
      cases g0 with
      | nil =>
        simp only [groupRuns, hgr, List.mem_cons] at hg
        rcases hg with rfl | hg
        · exact ⟨x.st, by simp⟩
        · exact ih g (by rw [hgr]; simp [hg])
      | cons y g2 =>
        by_cases hxy : x.st = y.st
        · simp only [groupRuns, hgr, if_pos hxy, List.mem_cons] at hg
          rcases hg with rfl | hg
          · obtain ⟨s, hs⟩ := ih (y :: g2) (by rw [hgr]; simp)
            refine ⟨s, ?_⟩
            intro a ha
            rcases List.mem_cons.1 ha with rfl | ha2
            · rw [hxy]
              exact hs y (by simp)
            · exact hs a ha2
          · exact ih g (by rw [hgr]; simp [hg])
        · simp only [groupRuns, hgr, if_neg hxy, List.mem_cons] at hg
          rcases hg with rfl | hg
          · exact ⟨x.st, by simp⟩
          · exact ih g (by rw [hgr]; simp [hg])

theorem pyMinByErr_mem : ∀ (xs : List PathT) (best : PathT), pyMinByErr best xs ∈ best :: xs := by
  intro xs
  induction xs with
  | nil => intro best; simp [pyMinByErr]
  | cons x xs ih =>
    intro best
    simp only [pyMinByErr]
    by_cases h : x.err < best.err
    · rw [if_pos h]
      have := ih x
      simp only [List.mem_cons] at this ⊢
      tauto
    · rw [if_neg h]
      have := ih best
      simp only [List.mem_cons] at this ⊢
      tauto

theorem pyMinByErr_le : ∀ (xs : List PathT) (best : PathT),
    (pyMinByErr best xs).err ≤ best.err ∧ ∀ x ∈ xs, (pyMinByErr best xs).err ≤ x.err := by
  intro xs
  induction xs with
  | nil => intro best; exact ⟨le_refl _, by simp⟩
  | cons x xs ih =>
    intro best
    simp only [pyMinByErr]
    by_cases h : x.err < best.err
    · rw [if_pos h]
      obtain ⟨h1, h2⟩ := ih x
      refine ⟨by omega, ?_⟩
      intro a ha
      rcases List.mem_cons.1 ha with rfl | ha2
      · exact h1
      · exact h2 a ha2
    · rw [if_neg h]
      obtain ⟨h1, h2⟩ := ih best
      refine ⟨h1, ?_⟩
      intro a ha
      rcases List.mem_cons.1 ha with rfl | ha2
      · omega
      · exact h2 a ha2

theorem reducePaths_subset (l : List PathT) : ∀ r ∈ reducePaths l, r ∈ l := by
  intro r hr
  unfold reducePaths at hr
  rw [List.mem_filterMap] at hr
  obtain ⟨g, hg, hfg⟩ := hr
  cases g with
  | nil => simp at hfg
  | cons x xs =>
    have hrx : r = pyMinByErr x xs := by
      simpa using hfg.symm
    subst hrx
    have hmem : pyMinByErr x xs ∈ x :: xs := pyMinByErr_mem xs x
    have hin : pyMinByErr x xs ∈ sortPaths l := by
      rw [← groupRuns_flatten (sortPaths l)]
      exact List.mem_flatten.2 ⟨x :: xs, hg, hmem⟩
    exact (sortPaths_perm l).mem_iff.1 hin

theorem reducePaths_covers (l : List PathT) :
    ∀ c ∈ l, ∃ r ∈ reducePaths l, r.st = c.st ∧ r.err ≤ c.err := by
  intro c hc
  have hc2 : c ∈ sortPaths l := (sortPaths_perm l).mem_iff.2 hc
  rw [← groupRuns_flatten (sortPaths l)] at hc2
  obtain ⟨g, hg, hcg⟩ := List.mem_flatten.1 hc2
  cases g with
  | nil => simp at hcg
  | cons x xs =>
    refine ⟨pyMinByErr x xs, ?_, ?_, ?_⟩
    · unfold reducePaths
      rw [List.mem_filterMap]
      exact ⟨x :: xs, hg, rfl⟩
    · obtain ⟨s, hs⟩ := groupRuns_same_st _ _ hg
      rw [hs _ (pyMinByErr_mem xs x), hs _ hcg]
    · obtain ⟨h1, h2⟩ := pyMinByErr_le xs x
      rcases List.mem_cons.1 hcg with rfl | hmem
      · exact h1
      · exact h2 _ hmem

/-! ## The survivor-set invariant through the decoding loop -/

theorem extPath_valid (iy iz : List Nat) (X : Nat) (hX : 0 < X)
    (suf : List (Nat × Nat)) (pr : Nat × Nat) (b : Nat) (hb : b ≤ 1)
    (p : PathT) (hp : ValidP iy iz X suf p) :
    ValidP iy iz X (pr :: suf) (extPath iy iz pr b p) := by
  obtain ⟨hlen, hbits, hst, herr⟩ := hp
  refine ⟨by simp [extPath, hlen], ?_, ?_, ?_⟩
  · intro c hc
    simp only [extPath, List.mem_cons] at hc
    rcases hc with rfl | hc2
    · exact hb
    · exact hbits c hc2
  · show b :: p.st.dropLast = sufState X (b :: p.bits)
    rw [hst, sufState_cons X hX]
  · show p.err + dH2 (2 * outBit iy (b :: p.st) + outBit iz (b :: p.st)) (pairVal pr)
        = sufMetric iy iz X (b :: p.bits) (pr :: suf)
    rw [hst, herr]
    have hm : sufMetric iy iz X (b :: p.bits) (pr :: suf)
        = dH2 (2 * outBit iy (b :: sufState X p.bits) + outBit iz (b :: sufState X p.bits))
            (pairVal pr) + sufMetric iy iz X p.bits suf := rfl
    rw [hm]
    omega

theorem step_preserves (iy iz : List Nat) (X : Nat) (hX : 0 < X)
    (hiy : iy ≠ []) (hiz : iz ≠ []) (suf : List (Nat × Nat)) (pr : Nat × Nat)
    (paths : List PathT)
    (hval : ∀ p ∈ paths, ValidP iy iz X suf p)
    (hcomp : CompleteP iy iz X suf paths) :
    ∃ cands, extendAll iy iz pr paths = some cands ∧
      (∀ p ∈ reducePaths cands, ValidP iy iz X (pr :: suf) p) ∧
      CompleteP iy iz X (pr :: suf) (reducePaths cands) := by
  have hstne : ∀ p ∈ paths, p.st ≠ [] := by
    intro p hp
    have hst := (hval p hp).2.2.1
    rw [hst]
    exact sufState_ne_nil X hX _
  refine ⟨_, extendAll_eq iy iz pr paths hiy hiz hstne, ?_, ?_⟩
  · intro q hq
    have hqc := reducePaths_subset _ q hq
    rw [List.mem_flatMap] at hqc
    obtain ⟨p, hp, hqe⟩ := hqc
    have hb : q = extPath iy iz pr 0 p ∨ q = extPath iy iz pr 1 p := by
      simpa using hqe
    rcases hb with rfl | rfl
    · exact extPath_valid iy iz X hX suf pr 0 (by omega) p (hval p hp)
    · exact extPath_valid iy iz X hX suf pr 1 (by omega) p (hval p hp)
  · intro hs hlen hbs
    cases hs with
    | nil => simp at hlen
    | cons h hs2 =>
      have hh : h ≤ 1 := hbs h (by simp)
      have hbs2 : ∀ b ∈ hs2, b ≤ 1 := fun b hb => hbs b (by simp [hb])
      obtain ⟨qq, hqmem, hqst, hqerr⟩ := hcomp hs2 (by simpa using hlen) hbs2
      have hcand : extPath iy iz pr h qq
          ∈ paths.flatMap (fun p => [extPath iy iz pr 0 p, extPath iy iz pr 1 p]) := by
        rw [List.mem_flatMap]
        refine ⟨qq, hqmem, ?_⟩
        interval_cases h <;> simp
      obtain ⟨r, hrmem, hrst, hrerr⟩ := reducePaths_covers _ _ hcand
      refine ⟨r, hrmem, ?_, ?_⟩
      · rw [hrst]
        show (extPath iy iz pr h qq).st = _
        simp only [extPath]
        rw [hqst, sufState_cons X hX]
      · apply le_trans hrerr
        show (extPath iy iz pr h qq).err ≤ _
        simp only [extPath]
        rw [hqst]
        have hm : sufMetric iy iz X (h :: hs2) (pr :: suf)
            = dH2 (2 * outBit iy (h :: sufState X hs2) + outBit iz (h :: sufState X hs2))
                (pairVal pr) + sufMetric iy iz X hs2 suf := rfl
        rw [hm]
        omega

theorem decodeFold_inv (iy iz : List Nat) (X : Nat) (hX : 0 < X)
    (hiy : iy ≠ []) (hiz : iz ≠ []) :
    ∀ (rem : List (Nat × Nat)) (paths : List PathT) (suf : List (Nat × Nat)),
      (∀ p ∈ paths, ValidP iy iz X suf p) → CompleteP iy iz X suf paths →
      ∃ out, decodeFold iy iz rem paths = some out ∧
        (∀ p ∈ out, ValidP iy iz X (rem.reverse ++ suf) p) ∧
        CompleteP iy iz X (rem.reverse ++ suf) out := by
  intro rem
  induction rem with
  | nil =>
    intro paths suf hv hc
    exact ⟨paths, rfl, by simpa using hv, by simpa using hc⟩
  | cons pr rest ih =>
    intro paths suf hv hc
    obtain ⟨cands, hext, hv2, hc2⟩ := step_preserves iy iz X hX hiy hiz suf pr paths hv hc
    have hfold : decodeFold iy iz (pr :: rest) paths
        = decodeFold iy iz rest (reducePaths cands) := by
      simp only [decodeFold, hext]
    obtain ⟨out, hout, hvo, hco⟩ := ih (reducePaths cands) (pr :: suf) hv2 hc2
    have hshape : rest.reverse ++ (pr :: suf) = (pr :: rest).reverse ++ suf := by
      simp
    refine ⟨out, by rw [hfold]; exact hout, ?_, ?_⟩
    · rw [← hshape]
      exact hvo
    · rw [← hshape]
      exact hco

/-- The central decode description: under a valid configuration, `decode`
returns the assembled output of a best survivor path, which is valid for the
received pair sequence and whose metric is minimal among all hypothesis bit
sequences. -/
theorem decode_main (bits : List Nat) (cfg : Config) (hX : 0 < cfg.X)
    (hiy : (getIndexes cfg).1 ≠ []) (hiz : (getIndexes cfg).2 ≠ []) :
    ∃ best, decode bits cfg = some (decodeOut cfg.X best.bits) ∧
      ValidP (getIndexes cfg).1 (getIndexes cfg).2 cfg.X (pairsOf bits) best ∧
      ∀ hs : List Nat, hs.length = (pairsOf bits).length → (∀ b ∈ hs, b ≤ 1) →
        best.err ≤ sufMetric (getIndexes cfg).1 (getIndexes cfg).2 cfg.X hs (pairsOf bits) := by
  have hinit_v : ∀ p ∈ [(⟨[], 0, List.replicate cfg.X 0⟩ : PathT)],
      ValidP (getIndexes cfg).1 (getIndexes cfg).2 cfg.X [] p := by
    intro p hp
    simp only [List.mem_singleton] at hp
    subst hp
    refine ⟨rfl, by simp, ?_, rfl⟩
    show List.replicate cfg.X 0 = sufState cfg.X []
    rw [sufState_nil]
  have hinit_c : CompleteP (getIndexes cfg).1 (getIndexes cfg).2 cfg.X []
      [(⟨[], 0, List.replicate cfg.X 0⟩ : PathT)] := by
    intro hs hlen _
    have hnil : hs = [] := List.eq_nil_of_length_eq_zero (by simpa using hlen)
    subst hnil
    refine ⟨⟨[], 0, List.replicate cfg.X 0⟩, by simp, ?_, le_refl 0⟩
    show List.replicate cfg.X 0 = sufState cfg.X []
    rw [sufState_nil]
  obtain ⟨out, hfold, hvo, hco⟩ := decodeFold_inv (getIndexes cfg).1 (getIndexes cfg).2
    cfg.X hX hiy hiz (pairsOf bits).reverse [⟨[], 0, List.replicate cfg.X 0⟩] [] hinit_v hinit_c
  rw [List.reverse_reverse, List.append_nil] at hvo hco
  obtain ⟨x, xs, rfl⟩ : ∃ x xs, out = x :: xs := by
    cases hout : out with
    | nil =>
      exfalso
      obtain ⟨q, hq, _, _⟩ := hco (List.replicate (pairsOf bits).length 0) (by simp)
        (by
          intro b hb
          have := List.eq_of_mem_replicate hb
          omega)
      rw [hout] at hq
      simp at hq
    | cons x xs => exact ⟨x, xs, rfl⟩
  have hdec : decode bits cfg = some (decodeOut cfg.X (pyMinByErr x xs).bits) := by
    simp only [decode]
    rw [hfold]
    rfl
  refine ⟨pyMinByErr x xs, hdec, hvo _ (pyMinByErr_mem xs x), ?_⟩
  intro hs hlen hbs
  obtain ⟨q, hq, _, hqerr⟩ := hco hs hlen hbs
  obtain ⟨h1, h2⟩ := pyMinByErr_le xs x
  rcases List.mem_cons.1 hq with rfl | hq2
  · exact le_trans h1 hqerr
  · exact le_trans (h2 _ hq2) hqerr

/-! ## Claims C9 and C10: input shaping and totality -/

theorem pairsOf_dropLast : ∀ (l : List Nat), l.length % 2 = 1 → pairsOf l = pairsOf l.dropLast
  | [] => by intro h; simp at h
  | [a] => by intro _; rfl
  | [a, b] => by intro h; simp at h
  | a :: b :: c :: rest => by
    intro h
    have h2 : (c :: rest).length % 2 = 1 := by
      simp only [List.length_cons] at h ⊢
      omega
    show (a, b) :: pairsOf (c :: rest) = (a, b) :: pairsOf ((c :: rest).dropLast)
    rw [pairsOf_dropLast (c :: rest) h2]

theorem pairsOf_length : ∀ l : List Nat, (pairsOf l).length = l.length / 2
  | [] => rfl
  | [a] => by simp [pairsOf]
  | a :: b :: rest => by
    simp only [pairsOf, List.length_cons]
    rw [pairsOf_length rest]
    omega

theorem chunks8_length : ∀ l : List Nat, (chunks8 l).length = l.length / 8
  | [] => rfl
  | [_] => by simp [chunks8]
  | [_, _] => by simp [chunks8]
  | [_, _, _] => by simp [chunks8]
  | [_, _, _, _] => by simp [chunks8]
  | [_, _, _, _, _] => by simp [chunks8]
  | [_, _, _, _, _, _] => by simp [chunks8]
  | [_, _, _, _, _, _, _] => by simp [chunks8]
  | b0 :: b1 :: b2 :: b3 :: b4 :: b5 :: b6 :: b7 :: rest => by
    simp only [chunks8, List.length_cons]
    rw [chunks8_length rest]
    omega

/-- C9: decoding a '0'/'1' string of odd length gives exactly the result of
decoding it with its last bit removed — the trailing bit is silently dropped
when the input is zipped into pairs, and (for a config on which the decoder
is defined at all, i.e. `X > 0` and non-empty tap sets) no error is raised. -/
theorem C9_odd_trailing_bit (bits : List Nat) (cfg : Config)
    (hodd : bits.length % 2 = 1) (hbin : ∀ b ∈ bits, b ≤ 1) :
    decode bits cfg = decode bits.dropLast cfg ∧
      (0 < cfg.X → (getIndexes cfg).1 ≠ [] → (getIndexes cfg).2 ≠ [] →
        (decode bits cfg).isSome) := by
  constructor
  · unfold decode
    rw [pairsOf_dropLast bits hodd]
  · intro hX h1 h2
    obtain ⟨best, hdec, _, _⟩ := decode_main bits cfg hX h1 h2
    rw [hdec]
    rfl

/-- Witness for C9 on the three-bit input `101` with the default config. -/
theorem C9_witness :
    decode [1, 0, 1] defaultConfig = decode ([1, 0, 1] : List Nat).dropLast defaultConfig ∧
      (0 < defaultConfig.X → (getIndexes defaultConfig).1 ≠ [] →
        (getIndexes defaultConfig).2 ≠ [] → (decode [1, 0, 1] defaultConfig).isSome) :=
  C9_odd_trailing_bit [1, 0, 1] defaultConfig (by decide) (by decide)

/-- C10: for every '0'/'1' input string of any length (fewer than two
characters, shorter than `2*X` bits, `M - X` negative or not a multiple of
8 included) and every `Config` (`X > 0`) whose two tap sets are non-empty,
`decode` returns normally; decoded bits beyond the `X`-bit flush prefix that
do not complete a full 8-bit chunk are discarded (the output has at most
`(M - X)/8` characters, `M = ⌊|bits|/2⌋`), and an input with no complete
pair decodes to the empty string. -/
theorem C10_decode_total (bits : List Nat) (cfg : Config)
    (hbin : ∀ b ∈ bits, b ≤ 1) (hX : 0 < cfg.X)
    (hiy : (getIndexes cfg).1 ≠ []) (hiz : (getIndexes cfg).2 ≠ []) :
    ∃ res, decode bits cfg = some res ∧
      res.length ≤ (bits.length / 2 - cfg.X) / 8 ∧
      (bits.length < 2 → res = []) := by
  obtain ⟨best, hdec, hv, _⟩ := decode_main bits cfg hX hiy hiz
  refine ⟨decodeOut cfg.X best.bits, hdec, ?_, ?_⟩
  · unfold decodeOut
    calc ((chunks8 (best.bits.drop cfg.X)).filterMap _).length
        ≤ (chunks8 (best.bits.drop cfg.X)).length := List.length_filterMap_le _ _
      _ = (best.bits.drop cfg.X).length / 8 := chunks8_length _
      _ = (best.bits.length - cfg.X) / 8 := by rw [List.length_drop]
      _ = (bits.length / 2 - cfg.X) / 8 := by rw [hv.1, pairsOf_length]
  · intro hlt
    have h0 : (pairsOf bits).length = 0 := by
      rw [pairsOf_length]
      omega
    have hb0 : best.bits = [] := List.eq_nil_of_length_eq_zero (by rw [hv.1]; exact h0)
    rw [hb0]
    simp [decodeOut, chunks8]

/-- Witness for C10 on a three-bit input with the default config. -/
theorem C10_witness :
    ∃ res, decode [1, 1, 0] defaultConfig = some res ∧
      res.length ≤ (([1, 1, 0] : List Nat).length / 2 - defaultConfig.X) / 8 ∧
      (([1, 1, 0] : List Nat).length < 2 → res = []) :=
  C10_decode_total [1, 1, 0] defaultConfig (by decide) (by decide) (by decide) (by decide)

/-! ## The lexicographic state order -/

theorem stateLtB_nil_right : ∀ x : List Nat, stateLtB x [] = false := by
  intro x
  cases x <;> rfl

theorem stateLtB_cons_cons (a b : Nat) (xs ys : List Nat) :
    stateLtB (a :: xs) (b :: ys)
      = if a < b then true else if b < a then false else stateLtB xs ys := rfl

theorem stateLtB_irrefl : ∀ x : List Nat, stateLtB x x = false := by
  intro x
  induction x with
  | nil => rfl
  | cons a xs ih =>
    rw [stateLtB_cons_cons, if_neg (by omega), if_neg (by omega)]
    exact ih

theorem stateLtB_eq_of_not_lt :
    ∀ x y : List Nat, stateLtB x y = false → stateLtB y x = false → x = y := by
  intro x
  induction x with
  | nil =>
    intro y h1 _
    cases y with
    | nil => rfl
    | cons b ys => simp [stateLtB] at h1
  | cons a xs ih =>
    intro y h1 h2
    cases y with
    | nil => simp [stateLtB] at h2
    | cons b ys =>
      rw [stateLtB_cons_cons] at h1 h2
      by_cases hab : a < b
      · rw [if_pos hab] at h1
        exact absurd h1 (by simp)
      · by_cases hba : b < a
        · rw [if_pos hba] at h2
          exact absurd h2 (by simp)
        · have hae : a = b := by omega
          rw [if_neg hab, if_neg hba] at h1
          rw [if_neg hba, if_neg hab] at h2
          rw [hae, ih ys h1 h2]

theorem stateLtB_trans :
    ∀ x y z : List Nat, stateLtB x y = true → stateLtB y z = true → stateLtB x z = true := by
  intro x
  induction x with
  | nil =>
    intro y z hxy hyz
    cases y with
    | nil => rw [stateLtB_nil_right] at hxy; exact absurd hxy (by simp)
    | cons b ys =>
      cases z with
      | nil => rw [stateLtB_nil_right] at hyz; exact absurd hyz (by simp)
      | cons c zs => rfl
  | cons a xs ih =>
    intro y z hxy hyz
    cases y with
    | nil => rw [stateLtB_nil_right] at hxy; exact absurd hxy (by simp)
    | cons b ys =>
      cases z with
      | nil => rw [stateLtB_nil_right] at hyz; exact absurd hyz (by simp)
      | cons c zs =>
        rw [stateLtB_cons_cons] at hxy hyz ⊢
        by_cases hab : a < b
        · by_cases hbc : b < c
          · rw [if_pos (by omega : a < c)]
          · by_cases hcb : c < b
            · rw [if_neg hbc, if_pos hcb] at hyz
              exact absurd hyz (by simp)
            · rw [if_pos (by omega : a < c)]
        · by_cases hba : b < a
          · rw [if_neg hab, if_pos hba] at hxy
            exact absurd hxy (by simp)
          · by_cases hbc : b < c
            · rw [if_pos (by omega : a < c)]
            · by_cases hcb : c < b
              · rw [if_neg hbc, if_pos hcb] at hyz
                exact absurd hyz (by simp)
              · rw [if_neg hab, if_neg hba] at hxy
                rw [if_neg hbc, if_neg hcb] at hyz
                rw [if_neg (by omega : ¬ a < c), if_neg (by omega : ¬ c < a)]
                exact ih ys zs hxy hyz

theorem stateLeB_total (x y : List Nat) : stateLeB x y = true ∨ stateLeB y x = true := by
  unfold stateLeB
  cases hxy : stateLtB x y with
  | false => right; rfl
  | true =>
    cases hyx : stateLtB y x with
    | false => left; rfl
    | true =>
      have hc := stateLtB_trans x y x hxy hyx
      rw [stateLtB_irrefl] at hc
      exact absurd hc (by simp)

theorem stateLeB_trans (x y z : List Nat) (h1 : stateLeB x y = true) (h2 : stateLeB y z = true) :
    stateLeB x z = true := by
  unfold stateLeB at h1 h2 ⊢
  cases hzx : stateLtB z x with
  | false => rfl
  | true =>
    exfalso
    have hyx : stateLtB y x = false := by
      cases hb : stateLtB y x with
      | false => rfl
      | true => rw [hb] at h1; simp at h1
    have hzy : stateLtB z y = false := by
      cases hb : stateLtB z y with
      | false => rfl
      | true => rw [hb] at h2; simp at h2
    by_cases hyz : stateLtB y z = true
    · have := stateLtB_trans y z x hyz hzx
      rw [this] at hyx
      exact absurd hyx (by simp)
    · have hyz2 : stateLtB y z = false := by
        cases hb : stateLtB y z with
        | false => rfl
        | true => exact absurd hb hyz
      have heq : y = z := stateLtB_eq_of_not_lt y z hyz2 hzy
      subst heq
      rw [hzx] at hyx
      exact absurd hyx (by simp)

theorem stateLeB_antisymm (x y : List Nat) (h1 : stateLeB x y = true)
    (h2 : stateLeB y x = true) : x = y := by
  unfold stateLeB at h1 h2
  have hyx : stateLtB y x = false := by
    cases hb : stateLtB y x with
    | false => rfl
    | true => rw [hb] at h1; simp at h1
  have hxy : stateLtB x y = false := by
    cases hb : stateLtB x y with
    | false => rfl
    | true => rw [hb] at h2; simp at h2
  exact stateLtB_eq_of_not_lt x y hxy hyx

/-! ## Sortedness of the survivor set and distinct states -/

theorem insertByState_sorted (x : PathT) (l : List PathT)
    (hl : l.Pairwise (fun a b => stateLeB a.st b.st = true)) :
    (insertByState x l).Pairwise (fun a b => stateLeB a.st b.st = true) := by
  induction l with
  | nil => simp [insertByState]
  | cons y ys ih =>
    rw [List.pairwise_cons] at hl
    obtain ⟨hy, hys⟩ := hl
    unfold insertByState
    by_cases hle : stateLeB x.st y.st
    · rw [if_pos hle, List.pairwise_cons]
      constructor
      · intro z hz
        rcases List.mem_cons.1 hz with rfl | hz2
        · exact hle
        · exact stateLeB_trans _ _ _ hle (hy z hz2)
      · rw [List.pairwise_cons]
        exact ⟨hy, hys⟩
    · rw [if_neg hle, List.pairwise_cons]
      constructor
      · intro z hz
        have hz2 := (insertByState_perm x ys).mem_iff.1 hz
        rcases List.mem_cons.1 hz2 with rfl | hz3
        · rcases stateLeB_total z.st y.st with h | h
          · exact absurd h hle
          · exact h
        · exact hy z hz3
      · exact ih hys

theorem sortPaths_sorted (l : List PathT) :
    (sortPaths l).Pairwise (fun a b => stateLeB a.st b.st = true) := by
  induction l with
  | nil => simp [sortPaths]
  | cons x xs ih => exact insertByState_sorted x (sortPaths xs) ih

theorem groupRuns_ne_nil : ∀ l : List PathT, [] ∉ groupRuns l := by
  intro l
  induction l with
  | nil => simp [groupRuns]
  | cons x xs ih =>
    cases hgr : groupRuns xs with
    | nil =>
      simp only [groupRuns, hgr]
      simp
    | cons g0 gs =>
      cases g0 with
      | nil => exact absurd (by rw [hgr]; exact List.mem_cons_self _ _) ih
      | cons y g2 =>
        by_cases hxy : x.st = y.st
        · simp only [groupRuns, hgr, if_pos hxy]
          intro hc
          rcases List.mem_cons.1 hc with hh | hh
          · exact absurd hh.symm (by simp)
          · exact ih (by rw [hgr]; exact List.mem_cons_of_mem _ hh)
        · simp only [groupRuns, hgr, if_neg hxy]
          intro hc
          rcases List.mem_cons.1 hc with hh | hh
          · exact absurd hh.symm (by simp)
          · exact ih (by rw [hgr]; simpa using hh)

theorem groupRuns_pairwise_ne :
    ∀ l : List PathT, l.Pairwise (fun a b => stateLeB a.st b.st = true) →
      (groupRuns l).Pairwise (fun g1 g2 => ∀ a ∈ g1, ∀ b ∈ g2, a.st ≠ b.st) := by
  intro l
  induction l with
  | nil => intro _; simp [groupRuns]
  | cons x xs ih =>
    intro hl
    rw [List.pairwise_cons] at hl
    obtain ⟨hx, hxs⟩ := hl
    cases hgr : groupRuns xs with
    | nil => simp [groupRuns, hgr]
    | cons g0 gs =>
      have hIH := ih hxs
      rw [hgr] at hIH
      cases g0 with
      | nil => exact absurd (by rw [hgr]; exact List.mem_cons_self _ _) (groupRuns_ne_nil xs)
      | cons y g2 =>
        have hflat := groupRuns_flatten xs
        rw [hgr] at hflat
        simp only [List.flatten_cons, List.cons_append] at hflat
        have hxs_shape : xs = y :: (g2 ++ gs.flatten) := hflat.symm
        have hymem : y ∈ xs := by rw [hxs_shape]; simp
        have hyle : ∀ b ∈ xs, b = y ∨ stateLeB y.st b.st = true := by
          intro b hb
          rw [hxs_shape] at hb
          rcases List.mem_cons.1 hb with rfl | hb2
          · exact Or.inl rfl
          · right
            rw [hxs_shape, List.pairwise_cons] at hxs
            exact hxs.1 b hb2
        by_cases hxy : x.st = y.st
        · simp only [groupRuns, hgr, if_pos hxy]
          rw [List.pairwise_cons] at hIH ⊢
          obtain ⟨hI1, hI2⟩ := hIH
          constructor
          · intro g hg a ha b hb
            rcases List.mem_cons.1 ha with rfl | ha2
            · rw [hxy]
              exact hI1 g hg y (by simp) b hb
            · exact hI1 g hg a ha2 b hb
          · exact hI2
        · simp only [groupRuns, hgr, if_neg hxy]
          rw [List.pairwise_cons]
          constructor
          · intro g hg a ha b hb
            have hax : a = x := by simpa using ha
            subst hax
            have hbxs : b ∈ xs := by
              rw [hxs_shape]
              rcases List.mem_cons.1 hg with rfl | hg2
              · rcases List.mem_cons.1 hb with rfl | hb2
                · simp
                · simp [hb2]
              · have : b ∈ gs.flatten := List.mem_flatten.2 ⟨g, hg2, hb⟩
                simp [this]
            intro hab
            rcases hyle b hbxs with rfl | hle
            · exact hxy hab
            · rw [← hab] at hle
              exact hxy (stateLeB_antisymm _ _ (hx y hymem) hle)
          · exact hIH

theorem pairwise_filterMap_trans {α β : Type} {R : α → α → Prop} {S : β → β → Prop}
    (f : α → Option β)
    (hf : ∀ a b, R a b → ∀ x, f a = some x → ∀ y, f b = some y → S x y) :
    ∀ l : List α, l.Pairwise R → (l.filterMap f).Pairwise S := by
  intro l
  induction l with
  | nil => intro _; simp
  | cons a l ih =>
    intro hl
    rw [List.pairwise_cons] at hl
    obtain ⟨ha, hl2⟩ := hl
    rw [List.filterMap_cons]
    cases hfa : f a with
    | none => exact ih hl2
    | some x =>
      rw [List.pairwise_cons]
      refine ⟨?_, ih hl2⟩
      intro y hy
      obtain ⟨b, hb, hfb⟩ := List.mem_filterMap.1 hy
      exact hf a b (ha b hb) x hfa y hfb

theorem reducePaths_st_nodup (l : List PathT) : ((reducePaths l).map (·.st)).Nodup := by
  have hGP := groupRuns_pairwise_ne (sortPaths l) (sortPaths_sorted l)
  have hP : (reducePaths l).Pairwise (fun r1 r2 => r1.st ≠ r2.st) := by
    unfold reducePaths
    refine pairwise_filterMap_trans _ ?_ _ hGP
    intro g1 g2 hR x hx y hy
    cases g1 with
    | nil => simp at hx
    | cons a as =>
      cases g2 with
      | nil => simp at hy
      | cons b bs =>
        simp only [Option.some.injEq] at hx hy
        rw [← hx, ← hy]
        exact hR _ (pyMinByErr_mem as a) _ (pyMinByErr_mem bs b)
  show ((reducePaths l).map (·.st)).Pairwise (· ≠ ·)
  rw [List.pairwise_map]
  exact hP

/-! ## Counting distinct states -/

theorem byteVal_foldl_init (l : List Nat) :
    ∀ acc, l.foldl (fun a b => 2 * a + b) acc = acc * 2 ^ l.length + byteVal l := by
  induction l with
  | nil => intro acc; simp [byteVal]
  | cons b l ih =>
    intro acc
    show l.foldl _ (2 * acc + b) = acc * 2 ^ (b :: l).length + byteVal (b :: l)
    rw [ih (2 * acc + b)]
    have hb : byteVal (b :: l) = b * 2 ^ l.length + byteVal l := by
      show l.foldl _ (2 * 0 + b) = _
      rw [ih (2 * 0 + b)]
      ring
    rw [hb, List.length_cons, pow_succ]
    ring

theorem byteVal_cons (b : Nat) (l : List Nat) :
    byteVal (b :: l) = b * 2 ^ l.length + byteVal l := by
  show l.foldl _ (2 * 0 + b) = _
  rw [byteVal_foldl_init]
  ring

theorem byteVal_lt (l : List Nat) (h : ∀ b ∈ l, b ≤ 1) : byteVal l < 2 ^ l.length := by
  induction l with
  | nil => simp [byteVal]
  | cons b l ih =>
    rw [byteVal_cons]
    have h1 := ih (fun x hx => h x (by simp [hx]))
    have h2 : b ≤ 1 := h b (by simp)
    rw [List.length_cons, pow_succ]
    have hk : 0 < 2 ^ l.length := Nat.pos_pow_of_pos _ (by norm_num)
    interval_cases b <;> omega

theorem byteVal_inj : ∀ (l1 l2 : List Nat), l1.length = l2.length →
    (∀ b ∈ l1, b ≤ 1) → (∀ b ∈ l2, b ≤ 1) → byteVal l1 = byteVal l2 → l1 = l2 := by
  intro l1
  induction l1 with
  | nil =>
    intro l2 hlen _ _ _
    symm
    exact List.eq_nil_of_length_eq_zero (by simpa using hlen.symm)
  | cons a l1 ih =>
    intro l2 hlen h1 h2 hv
    cases l2 with
    | nil => simp at hlen
    | cons b l2 =>
      rw [byteVal_cons, byteVal_cons] at hv
      have hlen2 : l1.length = l2.length := by simpa using hlen
      rw [hlen2] at hv
      have hv1 := byteVal_lt l1 (fun x hx => h1 x (by simp [hx]))
      have hv2 := byteVal_lt l2 (fun x hx => h2 x (by simp [hx]))
      rw [hlen2] at hv1
      have ha : a ≤ 1 := h1 a (by simp)
      have hb : b ≤ 1 := h2 b (by simp)
      have haeq : a = b := by
        interval_cases a <;> interval_cases b <;> omega
      subst haeq
      have hvv : byteVal l1 = byteVal l2 := by
        interval_cases a <;> omega
      rw [ih l2 hlen2 (fun x hx => h1 x (by simp [hx])) (fun x hx => h2 x (by simp [hx])) hvv]

theorem length_le_pow_of_st_nodup (L : List PathT) (X : Nat)
    (hn : (L.map (·.st)).Nodup)
    (hv : ∀ p ∈ L, p.st.length = X ∧ ∀ b ∈ p.st, b ≤ 1) :
    L.length ≤ 2 ^ X := by
  have hnv : ((L.map (·.st)).map byteVal).Nodup := by
    apply List.Nodup.map_on ?_ hn
    intro s1 hs1 s2 hs2 heq
    obtain ⟨p1, hp1, rfl⟩ := List.mem_map.1 hs1
    obtain ⟨p2, hp2, rfl⟩ := List.mem_map.1 hs2
    exact byteVal_inj _ _ (by rw [(hv p1 hp1).1, (hv p2 hp2).1]) (hv p1 hp1).2
      (hv p2 hp2).2 heq
  have hsub : ((L.map (·.st)).map byteVal).toFinset ⊆ Finset.range (2 ^ X) := by
    intro v hvv
    rw [List.mem_toFinset] at hvv
    rw [Finset.mem_range]
    obtain ⟨s, hs, rfl⟩ := List.mem_map.1 hvv
    obtain ⟨p, hp, rfl⟩ := List.mem_map.1 hs
    have hlt := byteVal_lt p.st (hv p hp).2
    rw [(hv p hp).1] at hlt
    exact hlt
  have hcard := Finset.card_le_card hsub
  rw [List.toFinset_card_of_nodup hnv, Finset.card_range] at hcard
  simpa using hcard

/-! ## Claim C8: at most one survivor per state at every depth -/

theorem pyPop_some_inv {l v : List Nat} (h : pyPop l = some v) : l ≠ [] ∧ v = l.dropLast := by
  cases l with
  | nil => simp [pyPop] at h
  | cons a l =>
    refine ⟨by simp, ?_⟩
    simpa [pyPop] using h.symm

theorem eval_step_some_inv {p : PathT} {iy iz : List Nat} {pr : Nat × Nat} {e : List PathT}
    (h : eval_step p iy iz pr = some e) :
    p.st ≠ [] ∧ ∃ ea eb,
      e = [⟨0 :: p.bits, p.err + ea, 0 :: p.st.dropLast⟩,
           ⟨1 :: p.bits, p.err + eb, 1 :: p.st.dropLast⟩] := by
  unfold eval_step at h
  cases hpop : pyPop p.st with
  | none => simp [hpop] at h
  | some stT =>
    obtain ⟨hne, rfl⟩ := pyPop_some_inv hpop
    cases hca : calculateHammingDist 0 p.st iy iz pr with
    | none => simp [hpop, hca] at h
    | some ea =>
      cases hcb : calculateHammingDist 1 p.st iy iz pr with
      | none => simp [hpop, hca, hcb] at h
      | some eb =>
        simp only [hpop, hca, hcb, Option.some.injEq] at h
        exact ⟨hne, ea, eb, h.symm⟩

theorem extendAll_some_mem {iy iz : List Nat} {pr : Nat × Nat}
    {paths cands : List PathT} (h : extendAll iy iz pr paths = some cands) :
    ∀ c ∈ cands, ∃ p ∈ paths, p.st ≠ [] ∧
      (c.st = 0 :: p.st.dropLast ∨ c.st = 1 :: p.st.dropLast) := by
  induction paths generalizing cands with
  | nil =>
    simp only [extendAll, Option.some.injEq] at h
    subst h
    intro c hc
    simp at hc
  | cons p ps ih =>
    intro c hc
    unfold extendAll at h
    cases he : eval_step p iy iz pr with
    | none => simp [he] at h
    | some e =>
      cases hrest : extendAll iy iz pr ps with
      | none => simp [he, hrest] at h
      | some rest =>
        simp only [he, hrest, Option.some.injEq] at h
        subst h
        rcases List.mem_append.1 hc with hce | hcr
        · obtain ⟨hne, ea, eb, rfl⟩ := eval_step_some_inv he
          rcases List.mem_cons.1 hce with rfl | hce2
          · exact ⟨p, by simp, hne, Or.inl rfl⟩
          · rcases List.mem_cons.1 hce2 with rfl | hce3
            · exact ⟨p, by simp, hne, Or.inr rfl⟩
            · simp at hce3
        · obtain ⟨q, hq, hq2⟩ := ih hrest c hcr
          exact ⟨q, by simp [hq], hq2⟩

theorem decodeFold_stinv (iy iz : List Nat) (X : Nat) (hX : 0 < X) :
    ∀ (rem : List (Nat × Nat)) (paths out : List PathT),
      (∀ p ∈ paths, p.st.length = X ∧ ∀ b ∈ p.st, b ≤ 1) →
      (paths.map (·.st)).Nodup → paths.length ≤ 2 ^ X →
      decodeFold iy iz rem paths = some out →
      (∀ p ∈ out, p.st.length = X ∧ ∀ b ∈ p.st, b ≤ 1) ∧
        (out.map (·.st)).Nodup ∧ out.length ≤ 2 ^ X := by
  intro rem
  induction rem with
  | nil =>
    intro paths out hv hn hb h
    simp only [decodeFold, Option.some.injEq] at h
    subst h
    exact ⟨hv, hn, hb⟩
  | cons pr rest ih =>
    intro paths out hv hn hb h
    unfold decodeFold at h
    cases hext : extendAll iy iz pr paths with
    | none => simp [hext] at h
    | some cands =>
      rw [hext] at h
      have hcv : ∀ c ∈ cands, c.st.length = X ∧ ∀ b ∈ c.st, b ≤ 1 := by
        intro c hc
        obtain ⟨p, hp, hne, hcase⟩ := extendAll_some_mem hext c hc
        obtain ⟨hplen, hpb⟩ := hv p hp
        have hdl : p.st.dropLast.length = X - 1 := by
          rw [List.length_dropLast, hplen]
        have hdb : ∀ b ∈ p.st.dropLast, b ≤ 1 := fun b hbm =>
          hpb b ((List.dropLast_sublist _).subset hbm)
        have hXlen : 0 < p.st.length := by
          cases hst : p.st with
          | nil => exact absurd hst hne
          | cons u us => simp [hst]
        rcases hcase with hst | hst <;>
          · rw [hst]
            refine ⟨by simp [hdl]; omega, ?_⟩
            intro b hbm
            rcases List.mem_cons.1 hbm with rfl | hbm2
            · omega
            · exact hdb b hbm2
      have hrv : ∀ p ∈ reducePaths cands, p.st.length = X ∧ ∀ b ∈ p.st, b ≤ 1 :=
        fun p hp => hcv p (reducePaths_subset _ p hp)
      have hrn := reducePaths_st_nodup cands
      have hrb := length_le_pow_of_st_nodup (reducePaths cands) X hrn hrv
      exact ih (reducePaths cands) out hrv hrn hrb h

/-- C8: after every reduction step inside `decode` (i.e. for the survivor
set produced after any number `i` of processed pairs, for any input), the
survivor set has at most one path per distinct register-state value, so the
number of survivors at every decoding depth is at most `2^X`. -/
theorem C8_at_most_one_per_state (bits : List Nat) (cfg : Config) (hX : 0 < cfg.X)
    (i : Nat) (out : List PathT)
    (h : decodeFold (getIndexes cfg).1 (getIndexes cfg).2 ((pairsOf bits).reverse.take i)
        [⟨[], 0, List.replicate cfg.X 0⟩] = some out) :
    (out.map (·.st)).Nodup ∧ out.length ≤ 2 ^ cfg.X := by
  have hinit_v : ∀ p ∈ [(⟨[], 0, List.replicate cfg.X 0⟩ : PathT)],
      p.st.length = cfg.X ∧ ∀ b ∈ p.st, b ≤ 1 := by
    intro p hp
    simp only [List.mem_singleton] at hp
    subst hp
    refine ⟨by simp, ?_⟩
    intro b hb
    have := List.eq_of_mem_replicate hb
    omega
  have hres := decodeFold_stinv (getIndexes cfg).1 (getIndexes cfg).2 cfg.X hX
    ((pairsOf bits).reverse.take i) _ out hinit_v (by simp)
    (by simpa using Nat.one_le_two_pow) h
  exact ⟨hres.2.1, hres.2.2⟩

/-- Witness for C8: the survivor set after both steps of decoding `1001`
with the minimal config `[1, 1, 1]` has distinct states and at most `2^1`
entries. -/
theorem C8_witness :
    (([⟨[0, 0], 2, [0]⟩, ⟨[1, 0], 2, [1]⟩] : List PathT).map (·.st)).Nodup ∧
      ([⟨[0, 0], 2, [0]⟩, ⟨[1, 0], 2, [1]⟩] : List PathT).length ≤ 2 ^ (1 : Nat) :=
  C8_at_most_one_per_state [1, 0, 0, 1] ⟨1, 1, 1⟩ (by decide) 2 _ (by decide)

/-! ## Round trip: the received pair list and the zero-metric path -/

theorem pairsOf_append_even :
    ∀ (A B : List Nat), A.length % 2 = 0 → pairsOf (A ++ B) = pairsOf A ++ pairsOf B
  | [], B => by intro _; rfl
  | [a], B => by intro h; simp at h
  | a :: b :: A, B => by
    intro h
    show (a, b) :: pairsOf (A ++ B) = (a, b) :: (pairsOf A ++ pairsOf B)
    rw [pairsOf_append_even A B (by simp only [List.length_cons] at h; omega)]

theorem flatMap_two_length (n : Nat) (f g : Nat → Nat) :
    ((List.range n).flatMap (fun i => [f i, g i])).length = 2 * n := by
  induction n with
  | zero => rfl
  | succ m ihm =>
    rw [List.range_succ, List.flatMap_append, List.length_append, ihm]
    simp
    omega

theorem pairsOf_pairlist (n : Nat) (f g : Nat → Nat) :
    pairsOf ((List.range n).flatMap (fun i => [f i, g i]))
      = (List.range n).map (fun i => (f i, g i)) := by
  induction n with
  | zero => rfl
  | succ n ih =>
    rw [List.range_succ, List.flatMap_append, List.map_append,
      pairsOf_append_even _ _ (by rw [flatMap_two_length]; omega)]
    rw [ih]
    rfl

theorem getD_drop_zero (l : List Nat) (n i : Nat) :
    (l.drop n).getD i 0 = l.getD (n + i) 0 := by
  by_cases h : n + i < l.length
  · rw [List.getD_eq_getElem _ _ (by rw [List.length_drop]; omega),
      List.getElem_drop, List.getD_eq_getElem _ _ h]
  · rw [List.getD_eq_default _ _ (by rw [List.length_drop]; omega),
      List.getD_eq_default _ _ (by omega)]

/-- The buffer of a `sufMetric` step reads the padded hypothesis sequence. -/
theorem drop_buffer_getD (X : Nat) (l : List Nat) (m : Nat) (hm : m < l.length)
    (t : Nat) (ht : t ≤ X) :
    (l[m] :: sufState X (l.drop (m + 1))).getD t 0 = l.getD (m + t) 0 := by
  have h0 : l[m] = (l.drop m).getD 0 0 := by
    rw [getD_drop_zero, Nat.add_zero]
    exact (List.getD_eq_getElem _ _ hm).symm
  cases t with
  | zero =>
    rw [List.getD_cons_zero, Nat.add_zero]
    exact (List.getD_eq_getElem _ _ hm).symm
  | succ t =>
    rw [List.getD_cons_succ, sufState_getD X _ t (by omega), getD_drop_zero]
    congr 1
    omega

/-- The true combined sequence re-encodes to the received pairs with total
metric zero. -/
theorem sufMetric_ideal_zero (iy iz : List Nat) (X : Nat)
    (hby : ∀ t ∈ iy, t ≤ X) (hbz : ∀ t ∈ iz, t ≤ X) (l : List Nat) :
    ∀ k m, l.length ≤ m + k →
      sufMetric iy iz X (l.drop m)
        (((List.range l.length).map
            (fun i => (idealBit iy l i, idealBit iz l i))).drop m) = 0 := by
  intro k
  induction k with
  | zero =>
    intro m hm
    rw [List.drop_eq_nil_of_le (by omega)]
    rfl
  | succ k ih =>
    intro m hm
    by_cases hlt : m < l.length
    · have hdrop : l.drop m = l[m] :: l.drop (m + 1) := List.drop_eq_getElem_cons hlt
      have hPl : ((List.range l.length).map
            (fun i => (idealBit iy l i, idealBit iz l i))).drop m
          = (idealBit iy l m, idealBit iz l m)
            :: ((List.range l.length).map
                (fun i => (idealBit iy l i, idealBit iz l i))).drop (m + 1) := by
        rw [List.drop_eq_getElem_cons (by simpa using hlt)]
        congr 1
        rw [List.getElem_map, List.getElem_range]
      rw [hdrop, hPl]
      have hstep : sufMetric iy iz X (l[m] :: l.drop (m + 1))
            ((idealBit iy l m, idealBit iz l m)
              :: ((List.range l.length).map
                  (fun i => (idealBit iy l i, idealBit iz l i))).drop (m + 1))
          = dH2 (2 * outBit iy (l[m] :: sufState X (l.drop (m + 1)))
                  + outBit iz (l[m] :: sufState X (l.drop (m + 1))))
              (pairVal (idealBit iy l m, idealBit iz l m))
            + sufMetric iy iz X (l.drop (m + 1))
                (((List.range l.length).map
                    (fun i => (idealBit iy l i, idealBit iz l i))).drop (m + 1)) := rfl
      rw [hstep]
      have hy : outBit iy (l[m] :: sufState X (l.drop (m + 1))) = idealBit iy l m := by
        unfold outBit idealBit
        congr 1
        apply List.map_congr_left
        intro t ht
        exact drop_buffer_getD X l m hlt t (hby t ht)
      have hz : outBit iz (l[m] :: sufState X (l.drop (m + 1))) = idealBit iz l m := by
        unfold outBit idealBit
        congr 1
        apply List.map_congr_left
        intro t ht
        exact drop_buffer_getD X l m hlt t (hbz t ht)
      rw [hy, hz]
      have hdh : dH2 (2 * idealBit iy l m + idealBit iz l m)
          (pairVal (idealBit iy l m, idealBit iz l m)) = 0 :=
        (dH2_eq_zero_iff _ _).2 rfl
      rw [hdh, ih (m + 1) (by omega), Nat.zero_add]
    · rw [List.drop_eq_nil_of_le (by omega)]
      rfl

/-- A zero-metric hypothesis sequence satisfies, at every step, the exact
pair equation. -/
theorem sufMetric_zero_step (iy iz : List Nat) (X : Nat)
    (hby : ∀ t ∈ iy, t ≤ X) (hbz : ∀ t ∈ iz, t ≤ X) :
    ∀ (hs : List Nat) (ps : List (Nat × Nat)), hs.length = ps.length →
      sufMetric iy iz X hs ps = 0 →
      ∀ m, m < hs.length →
        2 * xorFold (iy.map (fun t => hs.getD (m + t) 0))
            + xorFold (iz.map (fun t => hs.getD (m + t) 0))
          = pairVal (ps.getD m (0, 0)) := by
  intro hs
  induction hs with
  | nil =>
    intro ps _ _ m hm
    simp at hm
  | cons h hs2 ih =>
    intro ps hlen hzero m hm
    cases ps with
    | nil => simp at hlen
    | cons p ps2 =>
      have hsplit : dH2 (2 * outBit iy (h :: sufState X hs2)
              + outBit iz (h :: sufState X hs2)) (pairVal p)
            + sufMetric iy iz X hs2 ps2 = 0 := hzero
      have hd0 : dH2 (2 * outBit iy (h :: sufState X hs2)
          + outBit iz (h :: sufState X hs2)) (pairVal p) = 0 := by omega
      have hm0 : sufMetric iy iz X hs2 ps2 = 0 := by omega
      cases m with
      | zero =>
        have heq := (dH2_eq_zero_iff _ _).1 hd0
        rw [List.getD_cons_zero]
        rw [← heq]
        have hy : outBit iy (h :: sufState X hs2)
            = xorFold (iy.map (fun t => (h :: hs2).getD (0 + t) 0)) := by
          unfold outBit
          congr 1
          apply List.map_congr_left
          intro t ht
          rw [Nat.zero_add]
          exact cons_sufState_getD X h hs2 t (hby t ht)
        have hz : outBit iz (h :: sufState X hs2)
            = xorFold (iz.map (fun t => (h :: hs2).getD (0 + t) 0)) := by
          unfold outBit
          congr 1
          apply List.map_congr_left
          intro t ht
          rw [Nat.zero_add]
          exact cons_sufState_getD X h hs2 t (hbz t ht)
        rw [hy, hz]
      | succ m =>
        have hrec := ih ps2 (by simpa using hlen) hm0 m (by simpa using hm)
        rw [List.getD_cons_succ]
        rw [← hrec]
        have hgd : ∀ t, ((h :: hs2).getD (m + 1 + t) 0) = hs2.getD (m + t) 0 := by
          intro t
          have : m + 1 + t = (m + t) + 1 := by omega
          rw [this, List.getD_cons_succ]
        have hmy : List.map (fun t => (h :: hs2).getD (m + 1 + t) 0) iy
            = List.map (fun t => hs2.getD (m + t) 0) iy :=
          List.map_congr_left (fun t _ => hgd t)
        have hmz : List.map (fun t => (h :: hs2).getD (m + 1 + t) 0) iz
            = List.map (fun t => hs2.getD (m + t) 0) iz :=
          List.map_congr_left (fun t _ => hgd t)
        rw [hmy, hmz]

/-! ## Round trip: uniqueness of the zero-metric message -/

/-- Two bit sequences satisfying the same per-window xor equation for a tap
list with unique minimal element `t0` agree on every position from `t0` on
(downward induction from the end of the sequences). -/
theorem agree_above (T : List Nat) (t0 : Nat) (ht0 : t0 ∈ T) (hnd : T.Nodup)
    (hmin : ∀ t ∈ T, t ≠ t0 → t0 < t)
    (hs l : List Nat) (hlen : hs.length = l.length)
    (heq : ∀ m, m < l.length →
      xorFold (T.map (fun t => hs.getD (m + t) 0))
        = xorFold (T.map (fun t => l.getD (m + t) 0))) :
    ∀ k j, t0 ≤ j → j < l.length → l.length - j ≤ k → hs.getD j 0 = l.getD j 0 := by
  intro k
  induction k with
  | zero =>
    intro j h1 h2 h3
    omega
  | succ k ih =>
    intro j h1 h2 h3
    have hm : j - t0 < l.length := by omega
    have hstep := heq (j - t0) hm
    have hagree : ∀ t ∈ T, t ≠ t0 → hs.getD (j - t0 + t) 0 = l.getD (j - t0 + t) 0 := by
      intro t ht htne
      have htgt : t0 < t := hmin t ht htne
      by_cases hin : j - t0 + t < l.length
      · exact ih (j - t0 + t) (by omega) hin (by omega)
      · rw [List.getD_eq_default _ _ (by omega), List.getD_eq_default _ _ (by omega)]
    have hdiff := xorFold_single_diff T hnd t0 ht0
      (fun t => hs.getD (j - t0 + t) 0) (fun t => l.getD (j - t0 + t) 0) hagree
    rw [hstep, Nat.xor_self] at hdiff
    have hval := Nat.xor_eq_zero.1 hdiff.symm
    have hj : j - t0 + t0 = j := by omega
    simpa [hj] using hval

theorem taps_pairwise_lt (X P : Nat) :
    ((List.range (X + 1)).filter (fun i => bitN P (X - i) == 1)).Pairwise (· < ·) :=
  List.Pairwise.filter _ (List.pairwise_lt_range (X + 1))

theorem getIndexes_fst_sorted (cfg : Config) : (getIndexes cfg).1.Pairwise (· < ·) := by
  rw [getIndexes_eq]
  exact taps_pairwise_lt cfg.X cfg.Y

theorem getIndexes_snd_sorted (cfg : Config) : (getIndexes cfg).2.Pairwise (· < ·) := by
  rw [getIndexes_eq]
  exact taps_pairwise_lt cfg.X cfg.Z

theorem pairwise_lt_nodup {T : List Nat} (h : T.Pairwise (· < ·)) : T.Nodup :=
  h.imp (fun hlt => Nat.ne_of_lt hlt)

theorem pairwise_lt_head_min {t1 : Nat} {T2 : List Nat}
    (h : (t1 :: T2).Pairwise (· < ·)) :
    ∀ t ∈ t1 :: T2, t ≠ t1 → t1 < t := by
  intro t ht htne
  rcases List.mem_cons.1 ht with rfl | ht2
  · exact absurd rfl htne
  · exact (List.pairwise_cons.1 h).1 t ht2

/-! ## Round trip: byte reassembly -/

theorem list_len8_shape (l : List Nat) (h : l.length = 8) :
    ∃ b0 b1 b2 b3 b4 b5 b6 b7, l = [b0, b1, b2, b3, b4, b5, b6, b7] := by
  obtain ⟨b0, l1, rfl⟩ := List.exists_of_length_succ l (show l.length = 7 + 1 by omega)
  simp only [List.length_cons] at h
  obtain ⟨b1, l2, rfl⟩ := List.exists_of_length_succ l1 (show l1.length = 6 + 1 by omega)
  simp only [List.length_cons] at h
  obtain ⟨b2, l3, rfl⟩ := List.exists_of_length_succ l2 (show l2.length = 5 + 1 by omega)
  simp only [List.length_cons] at h
  obtain ⟨b3, l4, rfl⟩ := List.exists_of_length_succ l3 (show l3.length = 4 + 1 by omega)
  simp only [List.length_cons] at h
  obtain ⟨b4, l5, rfl⟩ := List.exists_of_length_succ l4 (show l4.length = 3 + 1 by omega)
  simp only [List.length_cons] at h
  obtain ⟨b5, l6, rfl⟩ := List.exists_of_length_succ l5 (show l5.length = 2 + 1 by omega)
  simp only [List.length_cons] at h
  obtain ⟨b6, l7, rfl⟩ := List.exists_of_length_succ l6 (show l6.length = 1 + 1 by omega)
  simp only [List.length_cons] at h
  obtain ⟨b7, l8, rfl⟩ := List.exists_of_length_succ l7 (show l7.length = 0 + 1 by omega)
  simp only [List.length_cons] at h
  have : l8 = [] := List.eq_nil_of_length_eq_zero (by omega)
  subst this
  exact ⟨b0, b1, b2, b3, b4, b5, b6, b7, rfl⟩

theorem chunks8_flatMap : ∀ s : List Nat, chunks8 (s.flatMap byteBits) = s.map byteBits := by
  intro s
  induction s with
  | nil => rfl
  | cons c s ih =>
    rw [List.flatMap_cons]
    obtain ⟨b0, b1, b2, b3, b4, b5, b6, b7, hsh⟩ := list_len8_shape (byteBits c) (byteBits_length c)
    rw [hsh]
    show [b0, b1, b2, b3, b4, b5, b6, b7] :: chunks8 (s.flatMap byteBits)
        = byteBits c :: s.map byteBits
    rw [ih, hsh]

theorem byteVal_append_singleton (A : List Nat) (x : Nat) :
    byteVal (A ++ [x]) = 2 * byteVal A + x := by
  unfold byteVal
  rw [List.foldl_append]
  rfl

theorem byteVal_bits (k n : Nat) :
    byteVal ((List.range k).map (fun i => bitN n (k - 1 - i))) = n % 2 ^ k := by
  induction k generalizing n with
  | zero => simp [byteVal, Nat.mod_one]
  | succ k ih =>
    rw [List.range_succ, List.map_append]
    have hlast : List.map (fun i => bitN n (k + 1 - 1 - i)) [k] = [bitN n 0] := by
      simp
    rw [hlast, byteVal_append_singleton]
    have hshift : List.map (fun i => bitN n (k + 1 - 1 - i)) (List.range k)
        = List.map (fun i => bitN (n / 2) (k - 1 - i)) (List.range k) := by
      apply List.map_congr_left
      intro i hi
      have hik : i < k := List.mem_range.1 hi
      have harith : k + 1 - 1 - i = (k - 1 - i) + 1 := by omega
      rw [harith, bitN_succ]
    rw [hshift, ih (n / 2)]
    have hsplit : (2 : Nat) ^ (k + 1) = 2 * 2 ^ k := by
      rw [pow_succ]
      ring
    rw [hsplit, Nat.mod_mul]
    rw [bitN_zero]
    omega

theorem byteVal_byteBits (c : Nat) : byteVal (byteBits c) = c % 256 := by
  rw [byteBits_eq]
  have h := byteVal_bits 8 c
  have harith : ∀ i : Nat, 8 - 1 - i = 7 - i := by intro i; omega
  simp only [harith] at h
  rw [h]
  norm_num

/-! ## Claim C1: the round trip -/

theorem combined_bits_le_one (s : List Nat) (cfg : Config) :
    ∀ b ∈ combined s cfg, b ≤ 1 := by
  intro b hb
  unfold combined at hb
  rcases List.mem_append.1 hb with h | h
  · have := List.eq_of_mem_replicate h
    omega
  · obtain ⟨c, hc, hbc⟩ := List.mem_flatMap.1 h
    exact byteBits_le_one c b hbc

theorem combined_drop (s : List Nat) (cfg : Config) :
    (combined s cfg).drop cfg.X = s.flatMap byteBits := by
  unfold combined
  exact List.drop_left' (List.length_replicate _ _)

/-- Any zero-metric hypothesis sequence for the ideal received pairs of a
combined sequence agrees with it beyond the flush prefix. -/
theorem zero_metric_message (cfg : Config) (hX : 0 < cfg.X)
    (hiy : (getIndexes cfg).1 ≠ []) (hiz : (getIndexes cfg).2 ≠ [])
    (comb hs : List Nat) (hcl : ∀ b ∈ comb, b ≤ 1) (hhl : ∀ b ∈ hs, b ≤ 1)
    (hlen : hs.length = comb.length)
    (hz : sufMetric (getIndexes cfg).1 (getIndexes cfg).2 cfg.X hs
        ((List.range comb.length).map
          (fun i => (idealBit (getIndexes cfg).1 comb i,
                     idealBit (getIndexes cfg).2 comb i))) = 0) :
    hs.drop cfg.X = comb.drop cfg.X := by
  have hby := getIndexes_fst_bounded cfg
  have hbz := getIndexes_snd_bounded cfg
  have hPllen : ((List.range comb.length).map
      (fun i => (idealBit (getIndexes cfg).1 comb i,
                 idealBit (getIndexes cfg).2 comb i))).length = comb.length := by
    simp
  have hstep_hs := sufMetric_zero_step (getIndexes cfg).1 (getIndexes cfg).2 cfg.X hby hbz
    hs _ (by rw [hPllen, hlen]) hz
  have hzc : sufMetric (getIndexes cfg).1 (getIndexes cfg).2 cfg.X comb
      ((List.range comb.length).map
        (fun i => (idealBit (getIndexes cfg).1 comb i,
                   idealBit (getIndexes cfg).2 comb i))) = 0 := by
    have := sufMetric_ideal_zero (getIndexes cfg).1 (getIndexes cfg).2 cfg.X hby hbz
      comb comb.length 0 (by omega)
    simpa using this
  have hstep_c := sufMetric_zero_step (getIndexes cfg).1 (getIndexes cfg).2 cfg.X hby hbz
    comb _ (by rw [hPllen]) hzc
  have hcompY : ∀ m, m < comb.length →
      xorFold ((getIndexes cfg).1.map (fun t => hs.getD (m + t) 0))
        = xorFold ((getIndexes cfg).1.map (fun t => comb.getD (m + t) 0)) := by
    intro m hm
    have h1 := hstep_hs m (by omega)
    have h2 := hstep_c m hm
    have b1 : xorFold ((getIndexes cfg).1.map (fun t => hs.getD (m + t) 0)) ≤ 1 := by
      apply xorFold_le_one
      intro b hb
      obtain ⟨t, _, rfl⟩ := List.mem_map.1 hb
      exact getD_le_one hhl _
    have b2 : xorFold ((getIndexes cfg).1.map (fun t => comb.getD (m + t) 0)) ≤ 1 := by
      apply xorFold_le_one
      intro b hb
      obtain ⟨t, _, rfl⟩ := List.mem_map.1 hb
      exact getD_le_one hcl _
    have b3 : xorFold ((getIndexes cfg).2.map (fun t => hs.getD (m + t) 0)) ≤ 1 := by
      apply xorFold_le_one
      intro b hb
      obtain ⟨t, _, rfl⟩ := List.mem_map.1 hb
      exact getD_le_one hhl _
    have b4 : xorFold ((getIndexes cfg).2.map (fun t => comb.getD (m + t) 0)) ≤ 1 := by
      apply xorFold_le_one
      intro b hb
      obtain ⟨t, _, rfl⟩ := List.mem_map.1 hb
      exact getD_le_one hcl _
    omega
  have hagree : ∀ j, cfg.X ≤ j → j < comb.length → hs.getD j 0 = comb.getD j 0 := by
    intro j hj1 hj2
    obtain ⟨t1, iyt, hiy_eq⟩ : ∃ t1 iyt, (getIndexes cfg).1 = t1 :: iyt := by
      cases hc : (getIndexes cfg).1 with
      | nil => exact absurd hc hiy
      | cons t1 iyt => exact ⟨t1, iyt, rfl⟩
    have hsorted := getIndexes_fst_sorted cfg
    have ht1X : t1 ≤ cfg.X := hby t1 (by rw [hiy_eq]; simp)
    have hmin : ∀ t ∈ (getIndexes cfg).1, t ≠ t1 → t1 < t := by
      rw [hiy_eq]
      exact pairwise_lt_head_min (by rw [← hiy_eq]; exact hsorted)
    exact agree_above (getIndexes cfg).1 t1 (by rw [hiy_eq]; simp)
      (pairwise_lt_nodup hsorted) hmin hs comb hlen hcompY comb.length j
      (by omega) hj2 (by omega)
  apply List.ext_getElem
  · rw [List.length_drop, List.length_drop, hlen]
  · intro i hi1 hi2
    rw [List.getElem_drop, List.getElem_drop]
    have hbound : cfg.X + i < comb.length := by
      rw [List.length_drop] at hi2
      omega
    have hj := hagree (cfg.X + i) (by omega) hbound
    rw [List.getD_eq_getElem _ _ (by omega), List.getD_eq_getElem _ _ hbound] at hj
    exact hj

/-- C1 counterexample: for the valid configuration `[1, 4, 4]` (all fields
positive) both tap sets are empty, so `encode` raises (modelled `none`) and
the round trip fails on the alphanumeric one-character message `"A"`. -/
theorem C1_counterexample :
    (encode [65] ⟨1, 4, 4⟩).bind (fun bs => decode bs ⟨1, 4, 4⟩) ≠ some [65] := by
  decide

/-- C1 (amended): for every alphanumeric string (code points < 128) and
every valid config `X, Y, Z > 0` whose two tap sets are non-empty (the low
`X+1` bits of `Y` and of `Z` are not all zero), decoding the encoding
returns exactly the original string. -/
theorem C1_round_trip (s : List Nat) (cfg : Config)
    (halnum : ∀ c ∈ s, isAlnumCode c) (hX : 0 < cfg.X)
    (hY : cfg.Y % 2 ^ (cfg.X + 1) ≠ 0) (hZ : cfg.Z % 2 ^ (cfg.X + 1) ≠ 0) :
    (encode s cfg).bind (fun bs => decode bs cfg) = some s := by
  have hiy : (getIndexes cfg).1 ≠ [] := by
    simp only [getIndexes_eq]
    exact taps_ne_nil _ _ hY
  have hiz : (getIndexes cfg).2 ≠ [] := by
    simp only [getIndexes_eq]
    exact taps_ne_nil _ _ hZ
  rw [encode_closed s cfg hX hiy hiz, Option.some_bind]
  obtain ⟨best, hdec, hvalid, hmin⟩ :=
    decode_main (idealPairs (getIndexes cfg).1 (getIndexes cfg).2 (combined s cfg)
      (combined s cfg).length) cfg hX hiy hiz
  have hpairs : pairsOf (idealPairs (getIndexes cfg).1 (getIndexes cfg).2 (combined s cfg)
        (combined s cfg).length)
      = (List.range (combined s cfg).length).map
          (fun i => (idealBit (getIndexes cfg).1 (combined s cfg) i,
                     idealBit (getIndexes cfg).2 (combined s cfg) i)) :=
    pairsOf_pairlist (combined s cfg).length _ _
  have hpairslen : (pairsOf (idealPairs (getIndexes cfg).1 (getIndexes cfg).2
      (combined s cfg) (combined s cfg).length)).length = (combined s cfg).length := by
    rw [hpairs]
    simp
  have hble := hmin (combined s cfg) (by rw [hpairslen]) (combined_bits_le_one s cfg)
  have h0 : sufMetric (getIndexes cfg).1 (getIndexes cfg).2 cfg.X (combined s cfg)
      (pairsOf (idealPairs (getIndexes cfg).1 (getIndexes cfg).2 (combined s cfg)
        (combined s cfg).length)) = 0 := by
    rw [hpairs]
    have := sufMetric_ideal_zero (getIndexes cfg).1 (getIndexes cfg).2 cfg.X
      (getIndexes_fst_bounded cfg) (getIndexes_snd_bounded cfg) (combined s cfg)
      (combined s cfg).length 0 (by omega)
    simpa using this
  have hbe : best.err = 0 := by omega
  obtain ⟨hblen, hbbits, hbst, hberr⟩ := hvalid
  have hbz : sufMetric (getIndexes cfg).1 (getIndexes cfg).2 cfg.X best.bits
      ((List.range (combined s cfg).length).map
        (fun i => (idealBit (getIndexes cfg).1 (combined s cfg) i,
                   idealBit (getIndexes cfg).2 (combined s cfg) i))) = 0 := by
    rw [← hpairs, ← hberr]
    exact hbe
  have hdropeq : best.bits.drop cfg.X = (combined s cfg).drop cfg.X :=
    zero_metric_message cfg hX hiy hiz (combined s cfg) best.bits
      (combined_bits_le_one s cfg) hbbits (by rw [hblen, hpairslen]) hbz
  rw [hdec]
  congr 1
  unfold decodeOut
  rw [hdropeq, combined_drop, chunks8_flatMap, List.filterMap_map]
  have hval : ∀ c ∈ s,
      ((fun w => if byteVal w < 128 then some (byteVal w) else none) ∘ byteBits) c
        = some c := by
    intro c hc
    have hcc := halnum c hc
    have hlt : c < 128 := by
      unfold isAlnumCode at hcc
      omega
    simp only [Function.comp]
    rw [byteVal_byteBits, Nat.mod_eq_of_lt (by omega)]
    simp [hlt]
  calc s.filterMap ((fun w => if byteVal w < 128 then some (byteVal w) else none) ∘ byteBits)
      = s.filterMap some := List.filterMap_congr hval
    _ = s := by simp

/-- Witness for the amended C1 at `"A"` with the default configuration. -/
theorem C1_witness :
    (encode [65] defaultConfig).bind (fun bs => decode bs defaultConfig) = some [65] :=
  C1_round_trip [65] defaultConfig (by decide) (by decide) (by decide) (by decide)

/-! ## Claim C5: pair-stream distance toolbox -/

theorem dH2_comm (v w : Nat) : dH2 v w = dH2 w v := by
  unfold dH2
  rw [Nat.xor_comm]

theorem seqDist_self : ∀ a : List (Nat × Nat), seqDist a a = 0
  | [] => rfl
  | p :: ps => by
    show dH2 (pairVal p) (pairVal p) + seqDist ps ps = 0
    rw [(dH2_eq_zero_iff _ _).2 rfl, seqDist_self ps]

theorem seqDist_comm : ∀ a b : List (Nat × Nat), seqDist a b = seqDist b a
  | [], [] => rfl
  | [], _ :: _ => rfl
  | _ :: _, [] => rfl
  | p :: ps, q :: qs => by
    show dH2 (pairVal p) (pairVal q) + seqDist ps qs
        = dH2 (pairVal q) (pairVal p) + seqDist qs ps
    rw [dH2_comm, seqDist_comm ps qs]

/-- The cumulative branch metric is the Hamming distance between the
re-encoded hypothesis stream and the received pair stream. -/
theorem sufMetric_eq_seqDist (iy iz : List Nat) (X : Nat) :
    ∀ (hs : List Nat) (ps : List (Nat × Nat)),
      sufMetric iy iz X hs ps = seqDist (cwOf iy iz X hs) ps := by
  intro hs
  induction hs with
  | nil => intro ps; cases ps <;> rfl
  | cons h hs2 ih =>
    intro ps
    cases ps with
    | nil => rfl
    | cons p ps2 =>
      show dH2 (2 * outBit iy (h :: sufState X hs2) + outBit iz (h :: sufState X hs2))
            (pairVal p) + sufMetric iy iz X hs2 ps2
          = dH2 (pairVal (outBit iy (h :: sufState X hs2), outBit iz (h :: sufState X hs2)))
            (pairVal p) + seqDist (cwOf iy iz X hs2) ps2
      rw [ih ps2]
      rfl

theorem cwOf_length (iy iz : List Nat) (X : Nat) :
    ∀ hs : List Nat, (cwOf iy iz X hs).length = hs.length
  | [] => rfl
  | h :: hs => by
    simp [cwOf, cwOf_length iy iz X hs]

/-- Closed form of the re-encoded pair at stream position `i`: the xor of the
hypothesis bits across each tap window. -/
theorem cwOf_getD (iy iz : List Nat) (X : Nat)
    (hby : ∀ t ∈ iy, t ≤ X) (hbz : ∀ t ∈ iz, t ≤ X) :
    ∀ (hs : List Nat) (i : Nat), i < hs.length →
      (cwOf iy iz X hs).getD i (0, 0)
        = (xorFold (iy.map (fun t => hs.getD (i + t) 0)),
           xorFold (iz.map (fun t => hs.getD (i + t) 0))) := by
  intro hs
  induction hs with
  | nil => intro i hi; simp at hi
  | cons h hs2 ih =>
    intro i hi
    cases i with
    | zero =>
      show ((outBit iy (h :: sufState X hs2), outBit iz (h :: sufState X hs2))
          :: cwOf iy iz X hs2).getD 0 (0, 0) = _
      rw [List.getD_cons_zero]
      have hy : outBit iy (h :: sufState X hs2)
          = xorFold (iy.map (fun t => (h :: hs2).getD (0 + t) 0)) := by
        unfold outBit
        congr 1
        apply List.map_congr_left
        intro t ht
        rw [Nat.zero_add]
        exact cons_sufState_getD X h hs2 t (hby t ht)
      have hz : outBit iz (h :: sufState X hs2)
          = xorFold (iz.map (fun t => (h :: hs2).getD (0 + t) 0)) := by
        unfold outBit
        congr 1
        apply List.map_congr_left
        intro t ht
        rw [Nat.zero_add]
        exact cons_sufState_getD X h hs2 t (hbz t ht)
      rw [hy, hz]
    | succ i =>
      show ((outBit iy (h :: sufState X hs2), outBit iz (h :: sufState X hs2))
          :: cwOf iy iz X hs2).getD (i + 1) (0, 0) = _
      rw [List.getD_cons_succ]
      rw [ih i (by simpa using hi)]
      have hgd : ∀ t, ((h :: hs2).getD (i + 1 + t) 0) = hs2.getD (i + t) 0 := by
        intro t
        have he : i + 1 + t = (i + t) + 1 := by omega
        rw [he, List.getD_cons_succ]
      have hmy : List.map (fun t => (h :: hs2).getD (i + 1 + t) 0) iy
          = List.map (fun t => hs2.getD (i + t) 0) iy :=
        List.map_congr_left (fun t _ => hgd t)
      have hmz : List.map (fun t => (h :: hs2).getD (i + 1 + t) 0) iz
          = List.map (fun t => hs2.getD (i + t) 0) iz :=
        List.map_congr_left (fun t _ => hgd t)
      rw [hmy, hmz]

theorem sufState_le_one {X : Nat} {hs : List Nat} (h : ∀ b ∈ hs, b ≤ 1) :
    ∀ b ∈ sufState X hs, b ≤ 1 := by
  intro b hb
  unfold sufState at hb
  have hb2 := List.mem_of_mem_take hb
  rcases List.mem_append.1 hb2 with h1 | h1
  · exact h b h1
  · have := List.eq_of_mem_replicate h1
    omega

theorem cwOf_pairVal_lt (iy iz : List Nat) (X : Nat) :
    ∀ hs : List Nat, (∀ b ∈ hs, b ≤ 1) →
      ∀ p ∈ cwOf iy iz X hs, pairVal p < 4 := by
  intro hs
  induction hs with
  | nil => intro _ p hp; simp [cwOf] at hp
  | cons h hs2 ih =>
    intro hb p hp
    have hbuf : ∀ b ∈ h :: sufState X hs2, b ≤ 1 := by
      intro b hbm
      rcases List.mem_cons.1 hbm with rfl | hbm2
      · exact hb b (by simp)
      · exact sufState_le_one (fun x hx => hb x (by simp [hx])) b hbm2
    rcases List.mem_cons.1 hp with rfl | hp2
    · have h1 := outBit_le_one iy _ hbuf
      have h2 := outBit_le_one iz _ hbuf
      show 2 * outBit iy (h :: sufState X hs2) + outBit iz (h :: sufState X hs2) < 4
      omega
    · exact ih (fun x hx => hb x (by simp [hx])) p hp2

theorem pairsOf_pairVal_lt : ∀ l : List Nat, (∀ x ∈ l, x ≤ 1) →
    ∀ p ∈ pairsOf l, pairVal p < 4
  | [], _, p, hp => by simp [pairsOf] at hp
  | [a], _, p, hp => by simp [pairsOf] at hp
  | a :: b :: rest, h, p, hp => by
    rcases List.mem_cons.1 hp with rfl | hp2
    · have ha := h a (by simp)
      have hb := h b (by simp)
      show 2 * a + b < 4
      omega
    · exact pairsOf_pairVal_lt rest (fun x hx => h x (by simp [hx])) p hp2

theorem idealPairs_le_one (iy iz : List Nat) (l : List Nat) (n : Nat)
    (hl : ∀ b ∈ l, b ≤ 1) : ∀ b ∈ idealPairs iy iz l n, b ≤ 1 := by
  intro b hb
  unfold idealPairs at hb
  obtain ⟨i, _, hbm⟩ := List.mem_flatMap.1 hb
  have hib : ∀ T : List Nat, idealBit T l i ≤ 1 := by
    intro T
    unfold idealBit
    apply xorFold_le_one
    intro x hx
    obtain ⟨t, _, rfl⟩ := List.mem_map.1 hx
    exact getD_le_one hl _
  rcases List.mem_cons.1 hbm with rfl | hbm2
  · exact hib iy
  · rcases List.mem_cons.1 hbm2 with rfl | h3
    · exact hib iz
    · simp at h3

theorem seqDist_triangle : ∀ (a b c : List (Nat × Nat)),
    a.length = b.length → b.length = c.length →
    (∀ p ∈ a, pairVal p < 4) → (∀ p ∈ b, pairVal p < 4) → (∀ p ∈ c, pairVal p < 4) →
    seqDist a c ≤ seqDist a b + seqDist b c := by
  intro a
  induction a with
  | nil => intro b c _ _ _ _ _; exact Nat.zero_le _
  | cons p ps ih =>
    intro b c h1 h2 ha hb hc
    cases b with
    | nil => simp at h1
    | cons q qs =>
      cases c with
      | nil => simp at h2
      | cons r rs =>
        have hh := dH2_triangle4 (pairVal p) (ha p (by simp)) (pairVal q) (hb q (by simp))
          (pairVal r) (hc r (by simp))
        have ht := ih qs rs (by simpa using h1) (by simpa using h2)
          (fun x hx => ha x (by simp [hx])) (fun x hx => hb x (by simp [hx]))
          (fun x hx => hc x (by simp [hx]))
        show dH2 (pairVal p) (pairVal r) + seqDist ps rs
            ≤ (dH2 (pairVal p) (pairVal q) + seqDist ps qs)
              + (dH2 (pairVal q) (pairVal r) + seqDist qs rs)
        omega

theorem seqDist_single_lower : ∀ (a b : List (Nat × Nat)) (i : Nat),
    i < a.length → a.length = b.length →
    dH2 (pairVal (a.getD i (0, 0))) (pairVal (b.getD i (0, 0))) ≤ seqDist a b := by
  intro a
  induction a with
  | nil => intro b i hi; simp at hi
  | cons p ps ih =>
    intro b i hi hlen
    cases b with
    | nil => simp at hlen
    | cons q qs =>
      cases i with
      | zero =>
        rw [List.getD_cons_zero, List.getD_cons_zero]
        show dH2 (pairVal p) (pairVal q) ≤ dH2 (pairVal p) (pairVal q) + seqDist ps qs
        omega
      | succ i =>
        rw [List.getD_cons_succ, List.getD_cons_succ]
        have hr := ih qs i (by simpa using hi) (by simpa using hlen)
        show dH2 (pairVal (ps.getD i (0, 0))) (pairVal (qs.getD i (0, 0)))
            ≤ dH2 (pairVal p) (pairVal q) + seqDist ps qs
        omega

theorem seqDist_pair_lower : ∀ (a b : List (Nat × Nat)) (i j : Nat),
    i < j → j < a.length → a.length = b.length →
    dH2 (pairVal (a.getD i (0, 0))) (pairVal (b.getD i (0, 0)))
      + dH2 (pairVal (a.getD j (0, 0))) (pairVal (b.getD j (0, 0))) ≤ seqDist a b := by
  intro a
  induction a with
  | nil => intro b i j hij hj _; simp at hj
  | cons p ps ih =>
    intro b i j hij hj hlen
    cases b with
    | nil => simp at hlen
    | cons q qs =>
      cases j with
      | zero => omega
      | succ j =>
        cases i with
        | zero =>
          rw [List.getD_cons_zero, List.getD_cons_zero, List.getD_cons_succ,
            List.getD_cons_succ]
          have hr := seqDist_single_lower ps qs j (by simpa using hj) (by simpa using hlen)
          show dH2 (pairVal p) (pairVal q)
              + dH2 (pairVal (ps.getD j (0, 0))) (pairVal (qs.getD j (0, 0)))
              ≤ dH2 (pairVal p) (pairVal q) + seqDist ps qs
          omega
        | succ i =>
          rw [List.getD_cons_succ, List.getD_cons_succ, List.getD_cons_succ,
            List.getD_cons_succ]
          have hr := ih qs i j (by omega) (by simpa using hj) (by simpa using hlen)
          show dH2 (pairVal (ps.getD i (0, 0))) (pairVal (qs.getD i (0, 0)))
              + dH2 (pairVal (ps.getD j (0, 0))) (pairVal (qs.getD j (0, 0)))
              ≤ dH2 (pairVal p) (pairVal q) + seqDist ps qs
          omega

/-! ## Claim C5: a single flipped bit moves the pair stream by at most 1 -/

theorem dH2_flip_fst : ∀ a < 2, ∀ b < 2, dH2 (2 * a + b) (2 * (1 - a) + b) ≤ 1 := by
  decide

theorem dH2_flip_snd : ∀ a < 2, ∀ b < 2, dH2 (2 * a + b) (2 * a + (1 - b)) ≤ 1 := by
  decide

theorem dH2_two_flip : ∀ y < 2, ∀ z < 2,
    dH2 (2 * y + z) (2 * (1 - y) + (1 - z)) = 2 := by
  decide

theorem dH2_one_fst_flip : ∀ y < 2, ∀ z < 2, ∀ w < 2,
    1 ≤ dH2 (2 * y + z) (2 * (1 - y) + w) := by
  decide

theorem dH2_one_snd_flip : ∀ y < 2, ∀ z < 2, ∀ w < 2,
    1 ≤ dH2 (2 * y + z) (2 * w + (1 - z)) := by
  decide

theorem dH2_pairVal_two {y1 z1 y2 z2 : Nat} (hy1 : y1 ≤ 1) (hz1 : z1 ≤ 1)
    (hy2 : y2 ≤ 1) (hz2 : z2 ≤ 1) (hy : y1 ≠ y2) (hz : z1 ≠ z2) :
    dH2 (pairVal (y1, z1)) (pairVal (y2, z2)) = 2 := by
  have he2 : y2 = 1 - y1 := by omega
  have he3 : z2 = 1 - z1 := by omega
  show dH2 (2 * y1 + z1) (2 * y2 + z2) = 2
  rw [he2, he3]
  exact dH2_two_flip y1 (by omega) z1 (by omega)

theorem dH2_pairVal_one_fst {y1 z1 y2 z2 : Nat} (hy1 : y1 ≤ 1) (hz1 : z1 ≤ 1)
    (hy2 : y2 ≤ 1) (hz2 : z2 ≤ 1) (hy : y1 ≠ y2) :
    1 ≤ dH2 (pairVal (y1, z1)) (pairVal (y2, z2)) := by
  have he2 : y2 = 1 - y1 := by omega
  show 1 ≤ dH2 (2 * y1 + z1) (2 * y2 + z2)
  rw [he2]
  exact dH2_one_fst_flip y1 (by omega) z1 (by omega) z2 (by omega)

theorem dH2_pairVal_one_snd {y1 z1 y2 z2 : Nat} (hy1 : y1 ≤ 1) (hz1 : z1 ≤ 1)
    (hy2 : y2 ≤ 1) (hz2 : z2 ≤ 1) (hz : z1 ≠ z2) :
    1 ≤ dH2 (pairVal (y1, z1)) (pairVal (y2, z2)) := by
  have he3 : z2 = 1 - z1 := by omega
  show 1 ≤ dH2 (2 * y1 + z1) (2 * y2 + z2)
  rw [he3]
  exact dH2_one_snd_flip y1 (by omega) z1 (by omega) y2 (by omega)

theorem xor_eq_one_of_ne {a b : Nat} (ha : a ≤ 1) (hb : b ≤ 1) (hne : a ≠ b) :
    a ^^^ b = 1 := by
  interval_cases a <;> interval_cases b <;> revert hne <;> decide

theorem ne_of_xor_eq_one {a b : Nat} (h : a ^^^ b = 1) : a ≠ b := by
  intro he
  subst he
  rw [Nat.xor_self] at h
  exact Nat.zero_ne_one h

/-- Flipping one bit of a 0/1 stream changes its pair decomposition by
Hamming distance at most 1. -/
theorem seqDist_pairsOf_set : ∀ (bs : List Nat), (∀ x ∈ bs, x ≤ 1) → ∀ k : Nat,
    seqDist (pairsOf bs) (pairsOf (bs.set k (1 - bs.getD k 0))) ≤ 1
  | [], _, _ => Nat.zero_le 1
  | [_], _, 0 => Nat.zero_le 1
  | [_], _, _ + 1 => Nat.zero_le 1
  | a :: b :: rest, h, 0 => by
    show dH2 (pairVal (a, b)) (pairVal (1 - a, b))
        + seqDist (pairsOf rest) (pairsOf rest) ≤ 1
    rw [seqDist_self]
    have ha := h a (by simp)
    have hb := h b (by simp)
    have hd := dH2_flip_fst a (by omega) b (by omega)
    show dH2 (2 * a + b) (2 * (1 - a) + b) + 0 ≤ 1
    omega
  | a :: b :: rest, h, 1 => by
    show dH2 (pairVal (a, b)) (pairVal (a, 1 - b))
        + seqDist (pairsOf rest) (pairsOf rest) ≤ 1
    rw [seqDist_self]
    have ha := h a (by simp)
    have hb := h b (by simp)
    have hd := dH2_flip_snd a (by omega) b (by omega)
    show dH2 (2 * a + b) (2 * a + (1 - b)) + 0 ≤ 1
    omega
  | a :: b :: rest, h, (k + 2) => by
    show dH2 (pairVal (a, b)) (pairVal (a, b))
        + seqDist (pairsOf rest) (pairsOf (rest.set k (1 - rest.getD k 0))) ≤ 1
    rw [(dH2_eq_zero_iff _ _).2 rfl]
    have hr := seqDist_pairsOf_set rest (fun x hx => h x (by simp [hx])) k
    omega

/-! ## Claim C5: the default taps separate pair streams by distance ≥ 3 -/

/-- If two bit sequences differ somewhere in a window `[1, n)`, there is a
maximal differing position in that window. -/
theorem max_diff_exists (hs cb : List Nat) :
    ∀ n : Nat, (∃ j, 1 ≤ j ∧ j < n ∧ hs.getD j 0 ≠ cb.getD j 0) →
      ∃ jm, 1 ≤ jm ∧ jm < n ∧ hs.getD jm 0 ≠ cb.getD jm 0 ∧
        ∀ m, jm < m → m < n → hs.getD m 0 = cb.getD m 0 := by
  intro n
  induction n with
  | zero => rintro ⟨j, hj1, hj2, _⟩; omega
  | succ n ih =>
    rintro ⟨j, hj1, hj2, hjne⟩
    by_cases htop : 1 ≤ n ∧ hs.getD n 0 ≠ cb.getD n 0
    · exact ⟨n, htop.1, by omega, htop.2, fun m hm1 hm2 => by omega⟩
    · have hjn : j < n := by
        rcases Nat.lt_succ_iff_lt_or_eq.1 hj2 with hlt | rfl
        · exact hlt
        · exact absurd ⟨hj1, hjne⟩ htop
      obtain ⟨jm, h1, h2, h3, h4⟩ := ih ⟨j, hj1, hjn, hjne⟩
      refine ⟨jm, h1, by omega, h3, ?_⟩
      intro m hm1 hm2
      rcases Nat.lt_succ_iff_lt_or_eq.1 hm2 with hlt | rfl
      · exact h4 m hm1 hlt
      · by_contra hne
        exact htop ⟨by omega, hne⟩

/-- For the default tap sets `[0,1,3,5]` and `[0,2,3,4]`, two hypothesis bit
sequences whose re-encoded pair streams are within Hamming distance 2 agree
on every position from 1 on: taking the maximal differing position `jm`,
both output bits differ at pair `jm` (distance 2) and at least one output
bit differs at pair `jm - 1` (distance ≥ 1), contradicting the bound. -/
theorem default_agree (hs cb : List Nat)
    (hhl : ∀ b ∈ hs, b ≤ 1) (hcl : ∀ b ∈ cb, b ≤ 1)
    (hlen : hs.length = cb.length)
    (hd : seqDist (cwOf [0, 1, 3, 5] [0, 2, 3, 4] 5 hs)
        (cwOf [0, 1, 3, 5] [0, 2, 3, 4] 5 cb) ≤ 2) :
    ∀ j, 1 ≤ j → j < cb.length → hs.getD j 0 = cb.getD j 0 := by
  by_contra hcon
  push_neg at hcon
  obtain ⟨j0, hj01, hj0len, hj0ne⟩ := hcon
  obtain ⟨jm, hjm1, hjmlen, hjmne, hjmmax⟩ :=
    max_diff_exists hs cb cb.length ⟨j0, hj01, hj0len, hj0ne⟩
  have hmax : ∀ m, jm < m → hs.getD m 0 = cb.getD m 0 := by
    intro m hm
    by_cases hmlen : m < cb.length
    · exact hjmmax m hm hmlen
    · rw [List.getD_eq_default _ _ (by omega), List.getD_eq_default _ _ (by omega)]
  have hby : ∀ t ∈ ([0, 1, 3, 5] : List Nat), t ≤ 5 := by decide
  have hbz : ∀ t ∈ ([0, 2, 3, 4] : List Nat), t ≤ 5 := by decide
  have hlenhs : jm < hs.length := by omega
  have hxf : ∀ (T : List Nat) (l : List Nat), (∀ b ∈ l, b ≤ 1) →
      ∀ m : Nat, xorFold (T.map (fun t => l.getD (m + t) 0)) ≤ 1 := by
    intro T l hl m
    apply xorFold_le_one
    intro b hb
    obtain ⟨t, _, rfl⟩ := List.mem_map.1 hb
    exact getD_le_one hl _
  have hyjm := xorFold_single_diff [0, 1, 3, 5] (by decide) 0 (by decide)
    (fun t => hs.getD (jm + t) 0) (fun t => cb.getD (jm + t) 0)
    (by
      intro t ht htne
      have hmem : t = 0 ∨ t = 1 ∨ t = 3 ∨ t = 5 := by simpa using ht
      rcases hmem with rfl | rfl | rfl | rfl
      · exact absurd rfl htne
      · exact hmax _ (by omega)
      · exact hmax _ (by omega)
      · exact hmax _ (by omega))
  have hyv : xorFold (([0, 1, 3, 5] : List Nat).map (fun t => hs.getD (jm + t) 0))
      ^^^ xorFold (([0, 1, 3, 5] : List Nat).map (fun t => cb.getD (jm + t) 0)) = 1 := by
    rw [hyjm]
    show hs.getD (jm + 0) 0 ^^^ cb.getD (jm + 0) 0 = 1
    rw [Nat.add_zero]
    exact xor_eq_one_of_ne (getD_le_one hhl jm) (getD_le_one hcl jm) hjmne
  have hyne := ne_of_xor_eq_one hyv
  have hzjm := xorFold_single_diff [0, 2, 3, 4] (by decide) 0 (by decide)
    (fun t => hs.getD (jm + t) 0) (fun t => cb.getD (jm + t) 0)
    (by
      intro t ht htne
      have hmem : t = 0 ∨ t = 2 ∨ t = 3 ∨ t = 4 := by simpa using ht
      rcases hmem with rfl | rfl | rfl | rfl
      · exact absurd rfl htne
      · exact hmax _ (by omega)
      · exact hmax _ (by omega)
      · exact hmax _ (by omega))
  have hzv : xorFold (([0, 2, 3, 4] : List Nat).map (fun t => hs.getD (jm + t) 0))
      ^^^ xorFold (([0, 2, 3, 4] : List Nat).map (fun t => cb.getD (jm + t) 0)) = 1 := by
    rw [hzjm]
    show hs.getD (jm + 0) 0 ^^^ cb.getD (jm + 0) 0 = 1
    rw [Nat.add_zero]
    exact xor_eq_one_of_ne (getD_le_one hhl jm) (getD_le_one hcl jm) hjmne
  have hzne := ne_of_xor_eq_one hzv
  have hdjm : dH2 (pairVal ((cwOf [0, 1, 3, 5] [0, 2, 3, 4] 5 hs).getD jm (0, 0)))
      (pairVal ((cwOf [0, 1, 3, 5] [0, 2, 3, 4] 5 cb).getD jm (0, 0))) = 2 := by
    rw [cwOf_getD [0, 1, 3, 5] [0, 2, 3, 4] 5 hby hbz hs jm hlenhs,
      cwOf_getD [0, 1, 3, 5] [0, 2, 3, 4] 5 hby hbz cb jm hjmlen]
    exact dH2_pairVal_two (hxf _ _ hhl jm) (hxf _ _ hhl jm)
      (hxf _ _ hcl jm) (hxf _ _ hcl jm) hyne hzne
  have hdprev : 1 ≤ dH2
      (pairVal ((cwOf [0, 1, 3, 5] [0, 2, 3, 4] 5 hs).getD (jm - 1) (0, 0)))
      (pairVal ((cwOf [0, 1, 3, 5] [0, 2, 3, 4] 5 cb).getD (jm - 1) (0, 0))) := by
    rw [cwOf_getD [0, 1, 3, 5] [0, 2, 3, 4] 5 hby hbz hs (jm - 1) (by omega),
      cwOf_getD [0, 1, 3, 5] [0, 2, 3, 4] 5 hby hbz cb (jm - 1) (by omega)]
    by_cases hprev : hs.getD (jm - 1) 0 = cb.getD (jm - 1) 0
    · have hyp := xorFold_single_diff [0, 1, 3, 5] (by decide) 1 (by decide)
        (fun t => hs.getD (jm - 1 + t) 0) (fun t => cb.getD (jm - 1 + t) 0)
        (by
          intro t ht htne
          have hmem : t = 0 ∨ t = 1 ∨ t = 3 ∨ t = 5 := by simpa using ht
          rcases hmem with rfl | rfl | rfl | rfl
          · simpa using hprev
          · exact absurd rfl htne
          · exact hmax _ (by omega)
          · exact hmax _ (by omega))
      have hyv2 : xorFold (([0, 1, 3, 5] : List Nat).map (fun t => hs.getD (jm - 1 + t) 0))
          ^^^ xorFold (([0, 1, 3, 5] : List Nat).map (fun t => cb.getD (jm - 1 + t) 0))
            = 1 := by
        rw [hyp]
        show hs.getD (jm - 1 + 1) 0 ^^^ cb.getD (jm - 1 + 1) 0 = 1
        have he : jm - 1 + 1 = jm := by omega
        rw [he]
        exact xor_eq_one_of_ne (getD_le_one hhl jm) (getD_le_one hcl jm) hjmne
      exact dH2_pairVal_one_fst (hxf _ _ hhl (jm - 1)) (hxf _ _ hhl (jm - 1))
        (hxf _ _ hcl (jm - 1)) (hxf _ _ hcl (jm - 1)) (ne_of_xor_eq_one hyv2)
    · have hzp := xorFold_single_diff [0, 2, 3, 4] (by decide) 0 (by decide)
        (fun t => hs.getD (jm - 1 + t) 0) (fun t => cb.getD (jm - 1 + t) 0)
        (by
          intro t ht htne
          have hmem : t = 0 ∨ t = 2 ∨ t = 3 ∨ t = 4 := by simpa using ht
          rcases hmem with rfl | rfl | rfl | rfl
          · exact absurd rfl htne
          · exact hmax _ (by omega)
          · exact hmax _ (by omega)
          · exact hmax _ (by omega))
      have hzv2 : xorFold (([0, 2, 3, 4] : List Nat).map (fun t => hs.getD (jm - 1 + t) 0))
          ^^^ xorFold (([0, 2, 3, 4] : List Nat).map (fun t => cb.getD (jm - 1 + t) 0))
            = 1 := by
        rw [hzp]
        show hs.getD (jm - 1 + 0) 0 ^^^ cb.getD (jm - 1 + 0) 0 = 1
        rw [Nat.add_zero]
        exact xor_eq_one_of_ne (getD_le_one hhl (jm - 1)) (getD_le_one hcl (jm - 1)) hprev
      exact dH2_pairVal_one_snd (hxf _ _ hhl (jm - 1)) (hxf _ _ hhl (jm - 1))
        (hxf _ _ hcl (jm - 1)) (hxf _ _ hcl (jm - 1)) (ne_of_xor_eq_one hzv2)
  have hlow := seqDist_pair_lower (cwOf [0, 1, 3, 5] [0, 2, 3, 4] 5 hs)
    (cwOf [0, 1, 3, 5] [0, 2, 3, 4] 5 cb) (jm - 1) jm (by omega)
    (by rw [cwOf_length]; omega)
    (by rw [cwOf_length, cwOf_length]; omega)
  omega

/-! ## Claim C5: assembling the single-bit tolerance theorem -/

theorem drop_eq_of_getD_agree (hs cb : List Nat) (X : Nat) (hlen : hs.length = cb.length)
    (hagree : ∀ j, X ≤ j → j < cb.length → hs.getD j 0 = cb.getD j 0) :
    hs.drop X = cb.drop X := by
  apply List.ext_getElem
  · rw [List.length_drop, List.length_drop, hlen]
  · intro i hi1 hi2
    rw [List.getElem_drop, List.getElem_drop]
    have hbound : X + i < cb.length := by
      rw [List.length_drop] at hi2
      omega
    have hj := hagree (X + i) (by omega) hbound
    rw [List.getD_eq_getElem _ _ (by omega), List.getD_eq_getElem _ _ hbound] at hj
    exact hj

/-- Output assembly recovers the message from any bit list agreeing with the
combined sequence beyond the flush prefix. -/
theorem decodeOut_recovers (s : List Nat) (cfg : Config) (halnum : ∀ c ∈ s, isAlnumCode c)
    (bits : List Nat) (hdrop : bits.drop cfg.X = (combined s cfg).drop cfg.X) :
    decodeOut cfg.X bits = s := by
  unfold decodeOut
  rw [hdrop, combined_drop, chunks8_flatMap, List.filterMap_map]
  have hval : ∀ c ∈ s,
      ((fun w => if byteVal w < 128 then some (byteVal w) else none) ∘ byteBits) c
        = some c := by
    intro c hc
    have hcc := halnum c hc
    have hlt : c < 128 := by
      unfold isAlnumCode at hcc
      omega
    simp only [Function.comp]
    rw [byteVal_byteBits, Nat.mod_eq_of_lt (by omega)]
    simp [hlt]
  calc s.filterMap ((fun w => if byteVal w < 128 then some (byteVal w) else none) ∘ byteBits)
      = s.filterMap some := List.filterMap_congr hval
    _ = s := by simp

/-- Core of C5: any 0/1 received stream of the right length within pair
distance 1 of the true encoding decodes, under the default configuration, to
the original message. -/
theorem C5_core (s : List Nat) (halnum : ∀ c ∈ s, isAlnumCode c)
    (rcv : List Nat) (hrecl : ∀ b ∈ rcv, b ≤ 1)
    (hreclen : rcv.length = 2 * (combined s defaultConfig).length)
    (hnear : seqDist
        (pairsOf (idealPairs (getIndexes defaultConfig).1 (getIndexes defaultConfig).2
          (combined s defaultConfig) (combined s defaultConfig).length))
        (pairsOf rcv) ≤ 1) :
    decode rcv defaultConfig = some s := by
  have hIdx : getIndexes defaultConfig = ([0, 1, 3, 5], [0, 2, 3, 4]) := by decide
  have hX : 0 < defaultConfig.X := by decide
  have hiy : (getIndexes defaultConfig).1 ≠ [] := by decide
  have hiz : (getIndexes defaultConfig).2 ≠ [] := by decide
  obtain ⟨best, hdec, hvalid, hmin⟩ := decode_main rcv defaultConfig hX hiy hiz
  have hcomb1 := combined_bits_le_one s defaultConfig
  have hrpl : (pairsOf rcv).length = (combined s defaultConfig).length := by
    rw [pairsOf_length, hreclen]
    omega
  have hble := hmin (combined s defaultConfig) (by rw [hrpl]) hcomb1
  have hpairs : pairsOf (idealPairs (getIndexes defaultConfig).1 (getIndexes defaultConfig).2
        (combined s defaultConfig) (combined s defaultConfig).length)
      = (List.range (combined s defaultConfig).length).map
          (fun i => (idealBit (getIndexes defaultConfig).1 (combined s defaultConfig) i,
                     idealBit (getIndexes defaultConfig).2 (combined s defaultConfig) i)) :=
    pairsOf_pairlist (combined s defaultConfig).length _ _
  have hTlen : (pairsOf (idealPairs (getIndexes defaultConfig).1 (getIndexes defaultConfig).2
      (combined s defaultConfig) (combined s defaultConfig).length)).length
        = (combined s defaultConfig).length := by
    rw [hpairs]
    simp
  have h0 : sufMetric (getIndexes defaultConfig).1 (getIndexes defaultConfig).2
      defaultConfig.X (combined s defaultConfig)
      (pairsOf (idealPairs (getIndexes defaultConfig).1 (getIndexes defaultConfig).2
        (combined s defaultConfig) (combined s defaultConfig).length)) = 0 := by
    rw [hpairs]
    have hz := sufMetric_ideal_zero (getIndexes defaultConfig).1 (getIndexes defaultConfig).2
      defaultConfig.X (getIndexes_fst_bounded defaultConfig)
      (getIndexes_snd_bounded defaultConfig) (combined s defaultConfig)
      (combined s defaultConfig).length 0 (by omega)
    simpa using hz
  have hcw0 : seqDist (cwOf (getIndexes defaultConfig).1 (getIndexes defaultConfig).2
      defaultConfig.X (combined s defaultConfig))
      (pairsOf (idealPairs (getIndexes defaultConfig).1 (getIndexes defaultConfig).2
        (combined s defaultConfig) (combined s defaultConfig).length)) = 0 := by
    rw [← sufMetric_eq_seqDist]
    exact h0
  have htp_lt : ∀ p ∈ pairsOf (idealPairs (getIndexes defaultConfig).1
      (getIndexes defaultConfig).2 (combined s defaultConfig)
      (combined s defaultConfig).length), pairVal p < 4 :=
    pairsOf_pairVal_lt _ (idealPairs_le_one _ _ _ _ hcomb1)
  have hrcv_lt : ∀ p ∈ pairsOf rcv, pairVal p < 4 := pairsOf_pairVal_lt rcv hrecl
  have hcw_comb_lt : ∀ p ∈ cwOf (getIndexes defaultConfig).1 (getIndexes defaultConfig).2
      defaultConfig.X (combined s defaultConfig), pairVal p < 4 :=
    cwOf_pairVal_lt _ _ _ _ hcomb1
  have htri1 := seqDist_triangle
    (cwOf (getIndexes defaultConfig).1 (getIndexes defaultConfig).2 defaultConfig.X
      (combined s defaultConfig))
    (pairsOf (idealPairs (getIndexes defaultConfig).1 (getIndexes defaultConfig).2
      (combined s defaultConfig) (combined s defaultConfig).length))
    (pairsOf rcv)
    (by rw [cwOf_length, hTlen]) (by rw [hTlen, hrpl])
    hcw_comb_lt htp_lt hrcv_lt
  have hbound1 : seqDist (cwOf (getIndexes defaultConfig).1 (getIndexes defaultConfig).2
      defaultConfig.X (combined s defaultConfig)) (pairsOf rcv) ≤ 1 := by
    omega
  have hberr1 : best.err ≤ 1 := by
    rw [sufMetric_eq_seqDist] at hble
    omega
  obtain ⟨hblen, hbbits, hbst, hberr⟩ := hvalid
  have hbsd : seqDist (cwOf (getIndexes defaultConfig).1 (getIndexes defaultConfig).2
      defaultConfig.X best.bits) (pairsOf rcv) ≤ 1 := by
    rw [← sufMetric_eq_seqDist, ← hberr]
    exact hberr1
  have htri2 := seqDist_triangle
    (cwOf (getIndexes defaultConfig).1 (getIndexes defaultConfig).2 defaultConfig.X best.bits)
    (pairsOf rcv)
    (cwOf (getIndexes defaultConfig).1 (getIndexes defaultConfig).2 defaultConfig.X
      (combined s defaultConfig))
    (by rw [cwOf_length, hblen]) (by rw [cwOf_length, hrpl])
    (cwOf_pairVal_lt _ _ _ _ hbbits) hrcv_lt hcw_comb_lt
  have hsym : seqDist (pairsOf rcv) (cwOf (getIndexes defaultConfig).1
      (getIndexes defaultConfig).2 defaultConfig.X (combined s defaultConfig))
      = seqDist (cwOf (getIndexes defaultConfig).1 (getIndexes defaultConfig).2
        defaultConfig.X (combined s defaultConfig)) (pairsOf rcv) := seqDist_comm _ _
  rw [hsym] at htri2
  have hfar : seqDist (cwOf (getIndexes defaultConfig).1 (getIndexes defaultConfig).2
      defaultConfig.X best.bits)
      (cwOf (getIndexes defaultConfig).1 (getIndexes defaultConfig).2 defaultConfig.X
        (combined s defaultConfig)) ≤ 2 := by
    omega
  have hfar5 : seqDist (cwOf [0, 1, 3, 5] [0, 2, 3, 4] 5 best.bits)
      (cwOf [0, 1, 3, 5] [0, 2, 3, 4] 5 (combined s defaultConfig)) ≤ 2 := by
    rw [hIdx] at hfar
    exact hfar
  have hagree := default_agree best.bits (combined s defaultConfig) hbbits hcomb1
    (by rw [hblen, hrpl]) hfar5
  have hdrop : best.bits.drop 5 = (combined s defaultConfig).drop 5 :=
    drop_eq_of_getD_agree best.bits (combined s defaultConfig) 5 (by rw [hblen, hrpl])
      (fun j hj1 hj2 => hagree j (by omega) hj2)
  rw [hdec]
  congr 1
  exact decodeOut_recovers s defaultConfig halnum best.bits hdrop

/-- C5: for every alphanumeric message and every bit position of its default
encoding, flipping exactly that one bit and decoding with the default
configuration `{X=5, Y=53, Z=46}` still recovers the message. -/
theorem C5_single_bit_tolerance (s : List Nat) (halnum : ∀ c ∈ s, isAlnumCode c)
    (bs : List Nat) (henc : encode s defaultConfig = some bs)
    (k : Nat) (hk : k < bs.length) :
    decode (bs.set k (1 - bs.getD k 0)) defaultConfig = some s := by
  have hX : 0 < defaultConfig.X := by decide
  have hiy : (getIndexes defaultConfig).1 ≠ [] := by decide
  have hiz : (getIndexes defaultConfig).2 ≠ [] := by decide
  have henc2 := encode_closed s defaultConfig hX hiy hiz
  rw [henc] at henc2
  have hbs := Option.some.inj henc2
  have hbs1 : ∀ b ∈ bs, b ≤ 1 := by
    rw [hbs]
    exact idealPairs_le_one _ _ _ _ (combined_bits_le_one s defaultConfig)
  apply C5_core s halnum (bs.set k (1 - bs.getD k 0))
  · intro b hb
    rcases List.mem_or_eq_of_mem_set hb with hmem | rfl
    · exact hbs1 b hmem
    · have := getD_le_one hbs1 k
      omega
  · rw [List.length_set, hbs, idealPairs_length]
  · rw [← hbs]
    exact seqDist_pairsOf_set bs hbs1 k

/-- Witness for C5: flipping the first bit of the 26-bit default encoding of
`"A"` still decodes to `"A"`. -/
theorem C5_witness :
    decode (([0, 0, 1, 0, 0, 1, 1, 1, 0, 1, 1, 0, 1, 1, 1, 0, 0, 1, 1, 1, 0, 1, 1, 0, 1, 1]
        : List Nat).set 0
      (1 - ([0, 0, 1, 0, 0, 1, 1, 1, 0, 1, 1, 0, 1, 1, 1, 0, 0, 1, 1, 1, 0, 1, 1, 0, 1, 1]
        : List Nat).getD 0 0)) defaultConfig = some [65] :=
  C5_single_bit_tolerance [65] (by decide) _ (by decide) 0 (by decide)

/-! ## Claim C6: the reduction keeps exactly the first minimum per state -/

theorem stateLtB_ne {a b : List Nat} (h : stateLtB a b = true) : a ≠ b := by
  intro he
  subst he
  rw [stateLtB_irrefl] at h
  exact Bool.false_ne_true h

/-- Filtering by a state key commutes with stable insertion: the inserted
path lands in front of the equal-key elements (all paths passed over have
strictly smaller keys). -/
theorem insertByState_filter (x : PathT) (s : List Nat) :
    ∀ l : List PathT,
      (insertByState x l).filter (fun q => decide (q.st = s))
        = if x.st = s
          then x :: l.filter (fun q => decide (q.st = s))
          else l.filter (fun q => decide (q.st = s)) := by
  intro l
  induction l with
  | nil =>
    by_cases hx : x.st = s
    · simp [insertByState, hx]
    · simp [insertByState, hx]
  | cons y ys ih =>
    unfold insertByState
    by_cases hle : stateLeB x.st y.st
    · rw [if_pos hle]
      by_cases hx : x.st = s <;> by_cases hy : y.st = s <;>
        simp [List.filter_cons, hx, hy]
    · rw [if_neg hle]
      have hlt : stateLtB y.st x.st = true := by
        unfold stateLeB at hle
        simpa using hle
      have hne : y.st ≠ x.st := stateLtB_ne hlt
      by_cases hx : x.st = s
      · have hy : ¬ y.st = s := by
          rw [← hx]
          exact hne
        simp [List.filter_cons, hx, hy, ih]
      · by_cases hy : y.st = s <;> simp [List.filter_cons, hx, hy, ih]

/-- The sort is stable: filtering by one state key gives the same list,
in the same order, before and after sorting. -/
theorem sortPaths_filter (s : List Nat) :
    ∀ l : List PathT,
      (sortPaths l).filter (fun q => decide (q.st = s))
        = l.filter (fun q => decide (q.st = s)) := by
  intro l
  induction l with
  | nil => rfl
  | cons x xs ih =>
    show (insertByState x (sortPaths xs)).filter (fun q => decide (q.st = s)) = _
    rw [insertByState_filter x s (sortPaths xs), List.filter_cons]
    by_cases hx : x.st = s
    · rw [if_pos hx, if_pos (by simp [hx]), ih]
    · rw [if_neg hx, if_neg (by simp [hx]), ih]

/-- In a flattened grouping with constant states inside groups and distinct
states across groups, filtering by a member's state recovers its group. -/
theorem flatten_filter_group : ∀ (G : List (List PathT)) (g : List PathT) (a : PathT),
    g ∈ G → a ∈ g →
    (∀ g2 ∈ G, ∀ x ∈ g2, ∀ y ∈ g2, x.st = y.st) →
    G.Pairwise (fun g1 g2 => ∀ x ∈ g1, ∀ y ∈ g2, x.st ≠ y.st) →
    G.flatten.filter (fun q => decide (q.st = a.st)) = g := by
  intro G
  induction G with
  | nil => intro g a hg; simp at hg
  | cons g0 G2 ih =>
    intro g a hg ha hsame hpw
    rw [List.flatten_cons, List.filter_append]
    rcases List.mem_cons.1 hg with rfl | hg2
    · have h1 : g.filter (fun q => decide (q.st = a.st)) = g := by
        rw [List.filter_eq_self]
        intro b hb
        simp [hsame g (by simp) b hb a ha]
      have h2 : G2.flatten.filter (fun q => decide (q.st = a.st)) = [] := by
        rw [List.filter_eq_nil_iff]
        intro b hb
        obtain ⟨g2, hg2, hbg2⟩ := List.mem_flatten.1 hb
        have hne := (List.pairwise_cons.1 hpw).1 g2 hg2 a ha b hbg2
        simp
        exact fun he => hne he.symm
      rw [h1, h2, List.append_nil]
    · have h1 : g0.filter (fun q => decide (q.st = a.st)) = [] := by
        rw [List.filter_eq_nil_iff]
        intro b hb
        have hne := (List.pairwise_cons.1 hpw).1 g hg2 b hb a ha
        simp
        exact hne
      rw [h1, List.nil_append]
      exact ih g a hg2 ha (fun g2 h2 => hsame g2 (by simp [h2])) (List.pairwise_cons.1 hpw).2

/-- In a list with pairwise-distinct states, filtering by the state of a
member yields exactly that member. -/
theorem filter_st_eq_singleton :
    ∀ L : List PathT, ((L.map (·.st)).Nodup) → ∀ r ∈ L,
      L.filter (fun q => decide (q.st = r.st)) = [r] := by
  intro L
  induction L with
  | nil => intro _ r hr; simp at hr
  | cons a L2 ih =>
    intro hnod r hr
    rw [List.map_cons, List.nodup_cons] at hnod
    obtain ⟨hna, hnd2⟩ := hnod
    rcases List.mem_cons.1 hr with rfl | hr2
    · rw [List.filter_cons, if_pos (by simp)]
      have hnil : L2.filter (fun q => decide (q.st = r.st)) = [] := by
        rw [List.filter_eq_nil_iff]
        intro b hb
        simp only [decide_eq_true_eq]
        intro hbst
        exact hna (by rw [← hbst]; exact List.mem_map_of_mem _ hb)
      rw [hnil]
    · have hane : ¬ a.st = r.st := by
        intro he
        exact hna (by rw [he]; exact List.mem_map_of_mem _ hr2)
      rw [List.filter_cons, if_neg (by simpa using hane)]
      exact ih hnd2 r hr2

theorem min_mem_reducePaths (l : List PathT) (x : PathT) (xs : List PathT)
    (hg : x :: xs ∈ groupRuns (sortPaths l)) :
    pyMinByErr x xs ∈ reducePaths l := by
  unfold reducePaths
  rw [List.mem_filterMap]
  exact ⟨x :: xs, hg, rfl⟩

/-- `min(..., key=err)` keeps the first minimum: the group splits at the
kept element, and everything enumerated before it has strictly larger
cumulative metric. -/
theorem pyMinByErr_first_min :
    ∀ (xs : List PathT) (x : PathT), ∃ g1 g2,
      x :: xs = g1 ++ pyMinByErr x xs :: g2 ∧ ∀ a ∈ g1, (pyMinByErr x xs).err < a.err := by
  intro xs
  induction xs with
  | nil =>
    intro x
    exact ⟨[], [], rfl, by simp⟩
  | cons y ys ih =>
    intro x
    by_cases h : y.err < x.err
    · obtain ⟨g1, g2, hsplit, hlt⟩ := ih y
      have he : pyMinByErr x (y :: ys) = pyMinByErr y ys := by
        simp [pyMinByErr, h]
      refine ⟨x :: g1, g2, ?_, ?_⟩
      · show x :: y :: ys = x :: (g1 ++ pyMinByErr x (y :: ys) :: g2)
        rw [he, hsplit]
      · intro a ha
        rcases List.mem_cons.1 ha with rfl | ha2
        · have h1 := (pyMinByErr_le ys y).1
          rw [he]
          omega
        · rw [he]
          exact hlt a ha2
    · obtain ⟨g1, g2, hsplit, hlt⟩ := ih x
      have he : pyMinByErr x (y :: ys) = pyMinByErr x ys := by
        simp [pyMinByErr, h]
      cases g1 with
      | nil =>
        simp only [List.nil_append] at hsplit
        have hx : pyMinByErr x ys = x := (List.cons.inj hsplit).1.symm
        refine ⟨[], y :: ys, ?_, by simp⟩
        show x :: y :: ys = pyMinByErr x (y :: ys) :: y :: ys
        rw [he, hx]
      | cons a g1' =>
        rw [List.cons_append] at hsplit
        obtain ⟨hax, hys⟩ := List.cons.inj hsplit
        refine ⟨x :: y :: g1', g2, ?_, ?_⟩
        · show x :: y :: ys = x :: y :: (g1' ++ pyMinByErr x (y :: ys) :: g2)
          rw [he, ← hys]
        · intro b hb
          rw [he]
          rcases List.mem_cons.1 hb with rfl | hb2
          · have hxa := hlt a (by simp)
            rw [← hax] at hxa
            exact hxa
          · rcases List.mem_cons.1 hb2 with rfl | hb3
            · have h1 := hlt a (by simp)
              have h2 : x.err ≤ b.err := Nat.le_of_not_lt h
              rw [← hax] at h1
              omega
            · exact hlt b (by simp [hb3])

/-- The survivors of one reduction are listed in ascending state order, so
the sortedness hypothesis of the tie-break analysis holds at every real
decoding step. -/
theorem reducePaths_sorted (l : List PathT) :
    (reducePaths l).Pairwise (fun a b => stateLeB a.st b.st = true) := by
  have hs := sortPaths_sorted l
  rw [← groupRuns_flatten (sortPaths l)] at hs
  obtain ⟨_, hbet⟩ := List.pairwise_flatten.1 hs
  unfold reducePaths
  refine pairwise_filterMap_trans _ ?_ _ hbet
  intro g1 g2 hR x hx y hy
  cases g1 with
  | nil => simp at hx
  | cons a as =>
    cases g2 with
    | nil => simp at hy
    | cons b bs =>
      simp only [Option.some.injEq] at hx hy
      rw [← hx, ← hy]
      exact hR _ (pyMinByErr_mem as a) _ (pyMinByErr_mem bs b)

/-- C6: one reduction step of the decoder. With the previous survivors
listed in ascending register-state order (as the preceding reduction emits
them), the candidate list is the in-order enumeration over survivors of the
bit-`0` extension then the bit-`1` extension, and for every candidate state
the reduction keeps exactly one path: the first enumerated candidate
attaining the minimal cumulative metric among the candidates with that
state (every candidate of that state enumerated before it has strictly
larger metric, and none has smaller). -/
theorem C6_first_min_per_state (iy iz : List Nat) (pr : Nat × Nat)
    (paths : List PathT) (hiy : iy ≠ []) (hiz : iz ≠ [])
    (hst : ∀ p ∈ paths, p.st ≠ [])
    (hsorted : paths.Pairwise (fun a b => stateLeB a.st b.st = true)) :
    extendAll iy iz pr paths
        = some (paths.flatMap (fun p => [extPath iy iz pr 0 p, extPath iy iz pr 1 p])) ∧
      ∀ c ∈ paths.flatMap (fun p => [extPath iy iz pr 0 p, extPath iy iz pr 1 p]),
        ∃ r g1 g2,
          (reducePaths (paths.flatMap
              (fun p => [extPath iy iz pr 0 p, extPath iy iz pr 1 p]))).filter
              (fun q => decide (q.st = c.st)) = [r] ∧
          (paths.flatMap (fun p => [extPath iy iz pr 0 p, extPath iy iz pr 1 p])).filter
              (fun q => decide (q.st = c.st)) = g1 ++ r :: g2 ∧
          (∀ a ∈ g1, r.err < a.err) ∧
          (∀ a ∈ g1 ++ r :: g2, r.err ≤ a.err) := by
  constructor
  · exact extendAll_eq iy iz pr paths hiy hiz hst
  · intro c hc
    have hcL : c ∈ sortPaths (paths.flatMap
        (fun p => [extPath iy iz pr 0 p, extPath iy iz pr 1 p])) :=
      (sortPaths_perm _).mem_iff.2 hc
    rw [← groupRuns_flatten (sortPaths (paths.flatMap
      (fun p => [extPath iy iz pr 0 p, extPath iy iz pr 1 p])))] at hcL
    obtain ⟨g, hg, hcg⟩ := List.mem_flatten.1 hcL
    obtain ⟨x, xs, rfl⟩ : ∃ x xs, g = x :: xs := by
      cases g with
      | nil => exact absurd hg (groupRuns_ne_nil _)
      | cons x xs => exact ⟨x, xs, rfl⟩
    have hsorted2 := sortPaths_sorted (paths.flatMap
      (fun p => [extPath iy iz pr 0 p, extPath iy iz pr 1 p]))
    have hsame := groupRuns_same_st (sortPaths (paths.flatMap
      (fun p => [extPath iy iz pr 0 p, extPath iy iz pr 1 p])))
    have hpw := groupRuns_pairwise_ne (sortPaths (paths.flatMap
      (fun p => [extPath iy iz pr 0 p, extPath iy iz pr 1 p]))) hsorted2
    have hgf : (sortPaths (paths.flatMap
        (fun p => [extPath iy iz pr 0 p, extPath iy iz pr 1 p]))).filter
        (fun q => decide (q.st = c.st)) = x :: xs := by
      rw [← groupRuns_flatten (sortPaths (paths.flatMap
        (fun p => [extPath iy iz pr 0 p, extPath iy iz pr 1 p])))]
      exact flatten_filter_group _ (x :: xs) c hg hcg
        (fun g2 hg2 x1 hx1 y1 hy1 => by
          obtain ⟨s2, hs2⟩ := hsame g2 hg2
          rw [hs2 x1 hx1, hs2 y1 hy1]) hpw
    have hcand_filter : (paths.flatMap
        (fun p => [extPath iy iz pr 0 p, extPath iy iz pr 1 p])).filter
        (fun q => decide (q.st = c.st)) = x :: xs := by
      rw [← sortPaths_filter c.st (paths.flatMap
        (fun p => [extPath iy iz pr 0 p, extPath iy iz pr 1 p]))]
      exact hgf
    have hr_mem : pyMinByErr x xs ∈ reducePaths (paths.flatMap
        (fun p => [extPath iy iz pr 0 p, extPath iy iz pr 1 p])) :=
      min_mem_reducePaths _ x xs hg
    have hrst : (pyMinByErr x xs).st = c.st := by
      obtain ⟨s2, hs2⟩ := hsame (x :: xs) hg
      rw [hs2 _ (pyMinByErr_mem xs x), hs2 c hcg]
    have hred_filter : (reducePaths (paths.flatMap
        (fun p => [extPath iy iz pr 0 p, extPath iy iz pr 1 p]))).filter
        (fun q => decide (q.st = c.st)) = [pyMinByErr x xs] := by
      rw [← hrst]
      exact filter_st_eq_singleton _ (reducePaths_st_nodup _) _ hr_mem
    obtain ⟨g1, g2, hsplit, hlt⟩ := pyMinByErr_first_min xs x
    refine ⟨pyMinByErr x xs, g1, g2, hred_filter, ?_, hlt, ?_⟩
    · rw [hcand_filter]
      exact hsplit
    · intro a ha
      rw [← hsplit] at ha
      obtain ⟨h1, h2⟩ := pyMinByErr_le xs x
      rcases List.mem_cons.1 ha with rfl | ha2
      · exact h1
      · exact h2 a ha2

/-- Witness for C6: one concrete reduction step over a single sorted
survivor with state `[0]` and taps `[0]`/`[0]` on the received pair `(0,0)`. -/
theorem C6_witness :
    extendAll [0] [0] (0, 0) [⟨[], 0, [0]⟩]
        = some ([(⟨[], 0, [0]⟩ : PathT)].flatMap
            (fun p => [extPath [0] [0] (0, 0) 0 p, extPath [0] [0] (0, 0) 1 p])) ∧
      ∀ c ∈ [(⟨[], 0, [0]⟩ : PathT)].flatMap
          (fun p => [extPath [0] [0] (0, 0) 0 p, extPath [0] [0] (0, 0) 1 p]),
        ∃ r g1 g2,
          (reducePaths ([(⟨[], 0, [0]⟩ : PathT)].flatMap
              (fun p => [extPath [0] [0] (0, 0) 0 p, extPath [0] [0] (0, 0) 1 p]))).filter
              (fun q => decide (q.st = c.st)) = [r] ∧
          ([(⟨[], 0, [0]⟩ : PathT)].flatMap
              (fun p => [extPath [0] [0] (0, 0) 0 p, extPath [0] [0] (0, 0) 1 p])).filter
              (fun q => decide (q.st = c.st)) = g1 ++ r :: g2 ∧
          (∀ a ∈ g1, r.err < a.err) ∧
          (∀ a ∈ g1 ++ r :: g2, r.err ≤ a.err) :=
  C6_first_min_per_state [0] [0] (0, 0) [⟨[], 0, [0]⟩] (by decide) (by decide)
    (by
      intro p hp
      rw [List.mem_singleton] at hp
      subst hp
      decide)
    (by simp)

end BMS
